import Mathlib

/-!
Verification development for the docs-crawler-mcp repository.

Shallow embedding conventions:
* JS strings are modelled as `List Char`; word sequences as `List α`.
* JS numbers used for scores/distances are modelled as `ℚ` (exact decimal
  rounding models `toFixed(4)`), embedding vectors for the cosine routine
  as `ℝ`.
* Stateful code (crawlers, stores) is modelled by explicit state passing;
  the single-threaded JS event loop is modelled by running queued tasks
  sequentially in FIFO order.
* External collaborators (the WHATWG `URL` platform class, the embedding
  services, `crypto.randomUUID`) are modelled explicitly and the model is
  described in the corresponding doc comment.
-/

namespace Docs

/- ## General list helpers -/

lemma getLast?_cons_ne_nil {α : Type} (a : α) {l : List α} (h : l ≠ []) :
    (a :: l).getLast? = l.getLast? := by
  cases l with
  | nil => exact absurd rfl h
  | cons b bs => exact List.getLast?_cons_cons

/- ## Chunker: `chunkMarkdownSlidingWindow` (src/src/data.ts, lines 145-159)

The source splits markdown into words (`markdown.split(/\s+/)`) and then
emits windows of `chunkSize` words stepping by `chunkSize - overlap`:

    for (let start = 0; start < words.length; start += chunkSize - overlap) {
      const end = Math.min(start + chunkSize, words.length);
      chunks.push(words.slice(start, end).join(" "));
      if (end === words.length) break;
    }

We embed the loop at word level: a window is the word list
`(words.drop start).take chunkSize` (`slice(start, min(start+chunkSize, length))`);
the `join(" ")` of the source is elided because the claims quantify over
the word sequence. -/

def chunkSize : Nat := 500

def overlap : Nat := 65

def chunkFrom {α : Type} (words : List α) (start : Nat) : List (List α) :=
  if _h : start < words.length then
    if start + chunkSize < words.length then
      (words.drop start).take chunkSize :: chunkFrom words (start + (chunkSize - overlap))
    else [(words.drop start).take chunkSize]
  else []
termination_by words.length - start
decreasing_by
  simp [chunkSize, overlap]
  omega

def chunkMarkdownSlidingWindow {α : Type} (words : List α) : List (List α) :=
  chunkFrom words 0

/-- Concatenation of the windows with the first `ov` words of every window
after the first removed (the spec's "concatenating the windows with each
O-word overlap removed"). -/
def dropOverlapJoin {α : Type} (ov : Nat) : List (List α) → List α
  | [] => []
  | c :: cs => c ++ (cs.map (List.drop ov)).flatten

lemma chunkFrom_map_drop_join {α : Type} (words : List α) (start : Nat) :
    ((chunkFrom words start).map (List.drop overlap)).flatten =
      words.drop (start + overlap) := by
  rw [chunkFrom]
  split
  · next hlt =>
    split
    · next hmore =>
      have ih := chunkFrom_map_drop_join words (start + (chunkSize - overlap))
      simp only [List.map_cons, List.flatten_cons, ih]
      rw [List.drop_take, List.drop_drop]
      have h2 : start + (chunkSize - overlap) + overlap =
          (start + overlap) + (chunkSize - overlap) := by omega
      rw [h2]
      exact List.drop_take_append_drop words (start + overlap) (chunkSize - overlap)
    · next hmore =>
      simp only [List.map_cons, List.map_nil, List.flatten_cons,
        List.flatten_nil, List.append_nil]
      rw [List.drop_take, List.drop_drop]
      apply List.take_of_length_le
      simp only [List.length_drop, chunkSize, overlap] at hmore ⊢
      omega
  · next hge =>
    simp only [List.map_nil, List.flatten_nil]
    symm
    apply List.drop_eq_nil_of_le
    omega
termination_by words.length - start
decreasing_by
  simp [chunkSize, overlap]
  omega

lemma chunkFrom_getElem? {α : Type} (words : List α) (start : Nat) (i : Nat)
    (h : i < (chunkFrom words start).length) :
    (chunkFrom words start)[i]? =
      some ((words.drop (start + i * (chunkSize - overlap))).take chunkSize) := by
  rw [chunkFrom] at h ⊢
  split at h
  · next hlt =>
    split at h
    · next hmore =>
      simp only [hmore, if_pos, hlt, dif_pos]
      cases i with
      | zero => simp
      | succ j =>
        simp only [List.getElem?_cons_succ]
        have ih := chunkFrom_getElem? words (start + (chunkSize - overlap)) j
          (by simpa using h)
        rw [ih]
        congr 3
        ring
    · next hmore =>
      simp only [List.length_singleton] at h
      interval_cases i
      simp [hlt, hmore]
  · next hge =>
    simp at h
termination_by words.length - start
decreasing_by
  simp [chunkSize, overlap]
  omega

lemma chunkFrom_ne_nil {α : Type} (words : List α) (start : Nat)
    (h : start < words.length) : chunkFrom words start ≠ [] := by
  rw [chunkFrom]
  split
  · split <;> simp
  · omega

lemma chunkFrom_getLast {α : Type} (words : List α) (start : Nat)
    (h : start < words.length) :
    ∃ k, (chunkFrom words start).getLast? =
      some (words.drop (start + k * (chunkSize - overlap))) := by
  rw [chunkFrom]
  split
  · next hlt =>
    split
    · next hmore =>
      have hlt2 : start + (chunkSize - overlap) < words.length := by
        simp only [chunkSize, overlap] at hmore ⊢
        omega
      obtain ⟨k, hk⟩ := chunkFrom_getLast words (start + (chunkSize - overlap)) hlt2
      refine ⟨k + 1, ?_⟩
      rw [getLast?_cons_ne_nil _ (chunkFrom_ne_nil words _ hlt2), hk]
      congr 2
      ring
    · next hmore =>
      refine ⟨0, ?_⟩
      simp only [List.getLast?_singleton, Nat.zero_mul, Nat.add_zero]
      congr 1
      apply List.take_of_length_le
      simp only [List.length_drop]
      omega
  · next hge => omega
termination_by words.length - start
decreasing_by
  simp [chunkSize, overlap]
  omega

lemma dropOverlapJoin_chunk {α : Type} (words : List α) :
    dropOverlapJoin overlap (chunkMarkdownSlidingWindow words) = words := by
  unfold chunkMarkdownSlidingWindow
  rw [chunkFrom]
  split
  · next hlt =>
    split
    · next hmore =>
      simp only [dropOverlapJoin, chunkFrom_map_drop_join, Nat.zero_add,
        List.drop_zero, List.take_zero]
      have h2 : chunkSize - overlap + overlap = chunkSize := by
        simp [chunkSize, overlap]
      rw [h2]
      exact List.take_append_drop chunkSize words
    · next hmore =>
      simp only [dropOverlapJoin, List.map_nil, List.flatten_nil,
        List.append_nil, List.drop_zero]
      apply List.take_of_length_le
      omega
  · next hge =>
    simp only [dropOverlapJoin]
    symm
    apply List.eq_nil_of_length_eq_zero
    omega

/-- C2: for every input text, chunking with window size W=500 words and
overlap O=65 words produces an ordered sequence of windows in which window
`i` starts at word offset `i*(W−O)`, the final window ends exactly at the
last word of the text, and concatenating the windows with each O-word
overlap removed reconstructs the original word sequence. -/
theorem c2_sliding_window_chunking {α : Type} (words : List α) :
    (∀ i, i < (chunkMarkdownSlidingWindow words).length →
      (chunkMarkdownSlidingWindow words)[i]? =
        some ((words.drop (i * (chunkSize - overlap))).take chunkSize)) ∧
    dropOverlapJoin overlap (chunkMarkdownSlidingWindow words) = words ∧
    (words ≠ [] → ∃ k, (chunkMarkdownSlidingWindow words).getLast? =
      some (words.drop (k * (chunkSize - overlap)))) := by
  refine ⟨?_, dropOverlapJoin_chunk words, ?_⟩
  · intro i hi
    have h := chunkFrom_getElem? words 0 i hi
    simpa using h
  · intro hne
    have hlen : 0 < words.length := List.length_pos.mpr hne
    obtain ⟨k, hk⟩ := chunkFrom_getLast words 0 hlen
    exact ⟨k, by simpa using hk⟩

/-- Witness for C2 at a concrete input, discharging the hypotheses of the
inner implications. -/
theorem c2_sliding_window_chunking_witness :
    ([0, 1] : List Nat) ≠ [] ∧
    (∃ k, (chunkMarkdownSlidingWindow ([0, 1] : List Nat)).getLast? =
      some (([0, 1] : List Nat).drop (k * (chunkSize - overlap)))) ∧
    (0 < (chunkMarkdownSlidingWindow ([0, 1] : List Nat)).length →
      (chunkMarkdownSlidingWindow ([0, 1] : List Nat))[0]? =
        some ((([0, 1] : List Nat).drop (0 * (chunkSize - overlap))).take chunkSize)) :=
  ⟨by decide,
   (c2_sliding_window_chunking ([0, 1] : List Nat)).2.2 (by decide),
   fun h => (c2_sliding_window_chunking ([0, 1] : List Nat)).1 0 h⟩

/- ## URL normalization: `normalizeUrl` (src/src/utils.ts, lines 20-27)

The source:

    export function normalizeUrl(url: string, baseUrl: URL): string {
      try {
        const parsed = new URL(url, baseUrl);
        return parsed.href.replace(/\/$/, "").split("#")[0];
      } catch {
        return "";
      }
    }

`new URL(url, baseUrl)` is the WHATWG URL platform class, an external
collaborator.  We model the fragment of its behaviour exercised by this
repository: absolute `http://` / `https://` URLs with a non-empty host and
an optional path, query and fragment, plus resolution of relative
references against an already-parsed base.  The serializer (`href`)
renders an empty path as "/" as WHATWG does for special schemes, and a
URL whose host is empty (e.g. the string "http://") fails to parse, as in
the platform.  Out of the model's scope (documented divergences from the
full platform API): percent-encoding, dot-segment normalization,
userinfo/port splitting, scheme case-folding and non-http(s) schemes. -/

structure URLRec where
  scheme : List Char
  host : List Char
  path : List Char
  query : Option (List Char)
  fragment : Option (List Char)
deriving DecidableEq, Repr

/-- Serializer piece: an empty path renders as "/" (WHATWG special scheme). -/
def pathPart (p : List Char) : List Char := if p = [] then ['/'] else p

def queryPart : Option (List Char) → List Char
  | none => []
  | some q => '?' :: q

def fragPart : Option (List Char) → List Char
  | none => []
  | some f => '#' :: f

/-- The `href` serializer of the modelled WHATWG URL class. -/
def serializeURL (r : URLRec) : List Char :=
  r.scheme ++ [':', '/', '/'] ++ r.host ++ pathPart r.path ++
    queryPart r.query ++ fragPart r.fragment

/-- Characters that may appear in a host: parsing stops at a path, query or
fragment delimiter. -/
def hostChar (c : Char) : Bool := c != '/' && c != '?' && c != '#'

/-- Split a list at the first occurrence of `c`: the part before it, and
(if found) the part after it. -/
def splitFirst (c : Char) : List Char → List Char × Option (List Char)
  | [] => ([], none)
  | a :: as =>
    if a = c then ([], some as)
    else
      let r := splitFirst c as
      (a :: r.1, r.2)

def parseAfterScheme (scheme rest : List Char) : Option URLRec :=
  let host := rest.takeWhile hostChar
  let rest2 := rest.dropWhile hostChar
  if host = [] then none
  else
    let pf := splitFirst '#' rest2
    let pq := splitFirst '?' pf.1
    some ⟨scheme, host, pq.1, pq.2, pf.2⟩

/-- Everything in a path up to and including its last '/' (the WHATWG
"remove the last path segment" step of relative resolution). -/
def dirname : List Char → List Char
  | [] => []
  | c :: cs => if '/' ∈ cs then c :: dirname cs else if c = '/' then ['/'] else []

def mergePath (basePath rel : List Char) : List Char :=
  dirname (if basePath = [] then ['/'] else basePath) ++ rel

/-- Model of `new URL(u, base)`: `none` models a thrown `TypeError`. -/
def parseURL (u : List Char) (base : URLRec) : Option URLRec :=
  if u = [] then some { base with fragment := none }
  else if (['h', 't', 't', 'p', ':', '/', '/'] : List Char).isPrefixOf u then
    parseAfterScheme ['h', 't', 't', 'p'] (u.drop 7)
  else if (['h', 't', 't', 'p', 's', ':', '/', '/'] : List Char).isPrefixOf u then
    parseAfterScheme ['h', 't', 't', 'p', 's'] (u.drop 8)
  else
    let pf := splitFirst '#' u
    let pq := splitFirst '?' pf.1
    if pq.1.head? = some '/' then
      some ⟨base.scheme, base.host, pq.1, pq.2, pf.2⟩
    else
      some ⟨base.scheme, base.host, mergePath base.path pq.1, pq.2, pf.2⟩

/-- `href.replace(/\/$/, "")`: remove one trailing slash. -/
def stripTrailingSlash (s : List Char) : List Char :=
  if s.getLast? = some '/' then s.dropLast else s

/-- `split("#")[0]`: everything before the first '#'. -/
def cutFragment (s : List Char) : List Char := s.takeWhile (· != '#')

def normalizeUrl (u : List Char) (base : URLRec) : List Char :=
  match parseURL u base with
  | none => []
  | some r => cutFragment (stripTrailingSlash (serializeURL r))

/-- Well-formedness of a URL record, as guaranteed by the parser. -/
structure WFURL (r : URLRec) : Prop where
  scheme_ok : r.scheme = ['h', 't', 't', 'p'] ∨ r.scheme = ['h', 't', 't', 'p', 's']
  host_ne : r.host ≠ []
  host_chars : ∀ c ∈ r.host, c ≠ '/' ∧ c ≠ '?' ∧ c ≠ '#'
  path_head : r.path = [] ∨ r.path.head? = some '/'
  path_chars : ∀ c ∈ r.path, c ≠ '?' ∧ c ≠ '#'
  query_chars : ∀ q, r.query = some q → ∀ c ∈ q, c ≠ '#'

/- ### splitFirst / takeWhile helper lemmas -/

lemma splitFirst_not_mem {c : Char} :
    ∀ {l : List Char}, (∀ x ∈ l, x ≠ c) → splitFirst c l = (l, none)
  | [], _ => rfl
  | a :: as, h => by
    have ha : a ≠ c := h a (List.mem_cons_self a as)
    have ih := splitFirst_not_mem (fun x hx => h x (List.mem_cons_of_mem a hx))
    simp [splitFirst, ha, ih]

lemma splitFirst_append {c : Char} :
    ∀ (l r : List Char), (∀ x ∈ l, x ≠ c) →
      splitFirst c (l ++ c :: r) = (l, some r)
  | [], r, _ => by simp [splitFirst]
  | a :: as, r, h => by
    have ha : a ≠ c := h a (List.mem_cons_self a as)
    have ih := splitFirst_append as r
      (fun x hx => h x (List.mem_cons_of_mem a hx))
    simp [splitFirst, ha, ih]

lemma splitFirst_fst_ne {c : Char} :
    ∀ {l : List Char} {x : Char}, x ∈ (splitFirst c l).1 → x ≠ c := by
  intro l
  induction l with
  | nil => intro x hx; simp [splitFirst] at hx
  | cons a as ih =>
    intro x hx
    by_cases ha : a = c
    · simp [splitFirst, ha] at hx
    · simp only [splitFirst, ha, if_neg, ne_eq, not_false_iff] at hx
      rcases List.mem_cons.mp hx with h | h
      · exact h ▸ ha
      · exact ih h

lemma splitFirst_fst_subset {c : Char} :
    ∀ {l : List Char} {x : Char}, x ∈ (splitFirst c l).1 → x ∈ l := by
  intro l
  induction l with
  | nil => intro x hx; simp [splitFirst] at hx
  | cons a as ih =>
    intro x hx
    by_cases ha : a = c
    · simp [splitFirst, ha] at hx
    · simp only [splitFirst, ha, if_neg, ne_eq, not_false_iff] at hx
      rcases List.mem_cons.mp hx with h | h
      · exact h ▸ List.mem_cons_self a as
      · exact List.mem_cons_of_mem a (ih h)

lemma splitFirst_snd_subset {c : Char} :
    ∀ {l r : List Char} {x : Char}, (splitFirst c l).2 = some r → x ∈ r → x ∈ l := by
  intro l
  induction l with
  | nil => intro r x hr; simp [splitFirst] at hr
  | cons a as ih =>
    intro r x hr hx
    by_cases ha : a = c
    · simp only [splitFirst, ha, if_pos] at hr
      cases hr
      exact List.mem_cons_of_mem a hx
    · simp only [splitFirst, ha, if_neg, ne_eq, not_false_iff] at hr
      exact List.mem_cons_of_mem a (ih hr hx)

lemma splitFirst_fst_head (c : Char) (l : List Char) :
    (splitFirst c l).1 = [] ∨ (splitFirst c l).1.head? = l.head? := by
  cases l with
  | nil => exact Or.inl rfl
  | cons a as =>
    by_cases ha : a = c
    · exact Or.inl (by simp [splitFirst, ha])
    · exact Or.inr (by simp [splitFirst, ha])

lemma takeWhile_all {p : Char → Bool} :
    ∀ {l : List Char}, (∀ x ∈ l, p x = true) → l.takeWhile p = l
  | [], _ => rfl
  | a :: as, h => by
    have ha := h a (List.mem_cons_self a as)
    have ih := takeWhile_all (fun x hx => h x (List.mem_cons_of_mem a hx))
    simp [List.takeWhile_cons, ha, ih]

lemma takeWhile_append_all {p : Char → Bool} :
    ∀ (l1 l2 : List Char), (∀ x ∈ l1, p x = true) →
      (∀ c, l2.head? = some c → p c = false) →
      (l1 ++ l2).takeWhile p = l1
  | [], l2, _, h2 => by
    cases l2 with
    | nil => rfl
    | cons b bs =>
      have hb := h2 b rfl
      simp [List.takeWhile_cons, hb]
  | a :: as, l2, h1, h2 => by
    have ha := h1 a (List.mem_cons_self a as)
    have ih := takeWhile_append_all as l2
      (fun x hx => h1 x (List.mem_cons_of_mem a hx)) h2
    simp [List.takeWhile_cons, ha, ih]

lemma dropWhile_append_all {p : Char → Bool} :
    ∀ (l1 l2 : List Char), (∀ x ∈ l1, p x = true) →
      (∀ c, l2.head? = some c → p c = false) →
      (l1 ++ l2).dropWhile p = l2
  | [], l2, _, h2 => by
    cases l2 with
    | nil => rfl
    | cons b bs =>
      have hb := h2 b rfl
      simp [List.dropWhile_cons, hb]
  | a :: as, l2, h1, h2 => by
    have ha := h1 a (List.mem_cons_self a as)
    have ih := dropWhile_append_all as l2
      (fun x hx => h1 x (List.mem_cons_of_mem a hx)) h2
    simp [List.dropWhile_cons, ha, ih]

lemma dropWhile_head?_false {p : Char → Bool} :
    ∀ {l : List Char} {a : Char}, (l.dropWhile p).head? = some a → p a = false := by
  intro l
  induction l with
  | nil => intro a h; simp [List.dropWhile] at h
  | cons b bs ih =>
    intro a h
    by_cases hb : p b
    · rw [List.dropWhile_cons_of_pos hb] at h
      exact ih h
    · rw [List.dropWhile_cons_of_neg hb] at h
      simp only [List.head?_cons, Option.some.injEq] at h
      subst h
      exact Bool.eq_false_iff.mpr hb

lemma cutFragment_no_hash {l : List Char} (h : ∀ x ∈ l, x ≠ '#') :
    cutFragment l = l := by
  apply takeWhile_all
  intro x hx
  simpa using h x hx

lemma cutFragment_append_hash {A f : List Char} (h : ∀ x ∈ A, x ≠ '#') :
    cutFragment (A ++ '#' :: f) = A := by
  apply takeWhile_append_all
  · intro x hx; simpa using h x hx
  · intro c hc
    simp only [List.head?_cons, Option.some.injEq] at hc
    subst hc
    simp

lemma stripTrailingSlash_of_not_slash {l : List Char} (h : l.getLast? ≠ some '/') :
    stripTrailingSlash l = l := by
  simp [stripTrailingSlash, h]

/- ### Shape of `normalizeUrl` output -/

/-- The fragment-free part of the serialized URL. -/
def serNF (r : URLRec) : List Char :=
  r.scheme ++ [':', '/', '/'] ++ (r.host ++ pathPart r.path ++ queryPart r.query)

lemma serializeURL_eq_serNF (r : URLRec) :
    serializeURL r = serNF r ++ fragPart r.fragment := by
  simp [serializeURL, serNF, List.append_assoc]

lemma serNF_no_hash {r : URLRec} (h : WFURL r) : ∀ x ∈ serNF r, x ≠ '#' := by
  intro x hx
  simp only [serNF, List.append_assoc, List.mem_append] at hx
  rcases hx with hs | hd | hh | hp | hq
  · rcases h.scheme_ok with h1 | h1 <;> rw [h1] at hs <;> (revert x; decide)
  · revert x; decide
  · exact (h.host_chars x hh).2.2
  · simp only [pathPart] at hp
    split at hp
    · simp only [List.mem_singleton] at hp
      subst hp; decide
    · exact (h.path_chars x hp).2
  · cases hq' : r.query with
    | none => rw [hq'] at hq; simp [queryPart] at hq
    | some q =>
      rw [hq'] at hq
      simp only [queryPart, List.mem_cons] at hq
      rcases hq with h1 | h1
      · subst h1; decide
      · exact h.query_chars q hq' x h1

lemma serNF_ne_nil (r : URLRec) : serNF r ≠ [] := by
  simp [serNF]

lemma normalize_shape_none {r : URLRec} (h : WFURL r) (hf : r.fragment = none) :
    cutFragment (stripTrailingSlash (serializeURL r)) =
      stripTrailingSlash (serNF r) := by
  rw [serializeURL_eq_serNF, hf]
  simp only [fragPart, List.append_nil]
  apply cutFragment_no_hash
  intro x hx
  rcases Decidable.em ((serNF r).getLast? = some '/') with hl | hl
  · rw [stripTrailingSlash, if_pos hl] at hx
    exact serNF_no_hash h x (List.dropLast_subset _ hx)
  · rw [stripTrailingSlash_of_not_slash hl] at hx
    exact serNF_no_hash h x hx

lemma normalize_shape_some {r : URLRec} (h : WFURL r) {f : List Char}
    (hf : r.fragment = some f) :
    cutFragment (stripTrailingSlash (serializeURL r)) = serNF r := by
  rw [serializeURL_eq_serNF, hf]
  simp only [fragPart]
  rcases Decidable.em ((serNF r ++ '#' :: f).getLast? = some '/') with hl | hl
  · rw [stripTrailingSlash, if_pos hl]
    have hfne : f ≠ [] := by
      intro hfe
      subst hfe
      rw [List.getLast?_concat] at hl
      simp at hl
    rw [List.dropLast_append_of_ne_nil _ (List.cons_ne_nil '#' f)]
    cases f with
    | nil => exact absurd rfl hfne
    | cons g gs =>
      rw [List.dropLast_cons₂]
      exact cutFragment_append_hash (serNF_no_hash h)
  · rw [stripTrailingSlash_of_not_slash hl]
    exact cutFragment_append_hash (serNF_no_hash h)

/- ### Reparsing canonical serializations -/

lemma hostChar_of_good {c : Char} (h : c ≠ '/' ∧ c ≠ '?' ∧ c ≠ '#') :
    hostChar c = true := by
  simp only [hostChar, Bool.and_eq_true, bne_iff_ne, ne_eq]
  exact ⟨⟨h.1, h.2.1⟩, h.2.2⟩

lemma parseAfterScheme_canonical (scheme host path : List Char)
    (q : Option (List Char))
    (hh : host ≠ []) (hhc : ∀ c ∈ host, c ≠ '/' ∧ c ≠ '?' ∧ c ≠ '#')
    (hp : path = [] ∨ path.head? = some '/')
    (hpc : ∀ c ∈ path, c ≠ '?' ∧ c ≠ '#')
    (hqc : ∀ qq, q = some qq → ∀ c ∈ qq, c ≠ '#') :
    parseAfterScheme scheme (host ++ path ++ queryPart q) =
      some ⟨scheme, host, path, q, none⟩ := by
  have hhc' : ∀ c ∈ host, hostChar c = true := fun c hc => hostChar_of_good (hhc c hc)
  have htail : ∀ c, (path ++ queryPart q).head? = some c → hostChar c = false := by
    intro c hc
    cases path with
    | nil =>
      simp only [List.nil_append] at hc
      cases hq : q with
      | none => rw [hq] at hc; simp [queryPart] at hc
      | some qq =>
        rw [hq] at hc
        simp only [queryPart, List.head?_cons, Option.some.injEq] at hc
        subst hc
        decide
    | cons p ps =>
      rcases hp with h0 | h0
      · exact absurd h0 (List.cons_ne_nil p ps)
      · simp only [List.head?_cons, Option.some.injEq] at h0
        simp only [List.cons_append, List.head?_cons, Option.some.injEq] at hc
        subst hc
        rw [h0]
        decide
  have hsp : ∀ x ∈ path ++ queryPart q, x ≠ '#' := by
    intro x hx
    rcases List.mem_append.mp hx with h1 | h1
    · exact (hpc x h1).2
    · cases hq : q with
      | none => rw [hq] at h1; simp [queryPart] at h1
      | some qq =>
        rw [hq] at h1
        simp only [queryPart, List.mem_cons] at h1
        rcases h1 with h2 | h2
        · subst h2; decide
        · exact hqc qq hq x h2
  rw [List.append_assoc]
  unfold parseAfterScheme
  rw [takeWhile_append_all host (path ++ queryPart q) hhc' htail,
    dropWhile_append_all host (path ++ queryPart q) hhc' htail]
  simp only [hh, if_neg, reduceIte]
  rw [splitFirst_not_mem hsp]
  cases hq : q with
  | none =>
    simp only [queryPart, List.append_nil]
    rw [splitFirst_not_mem (fun x hx => (hpc x hx).1)]
  | some qq =>
    have hq2 : path ++ queryPart (some qq) = path ++ '?' :: qq := rfl
    rw [hq2, splitFirst_append path qq (fun x hx => (hpc x hx).1)]

lemma isPrefixOf_append_self : ∀ (l m : List Char), l.isPrefixOf (l ++ m) = true
  | [], m => by simp [List.isPrefixOf]
  | a :: as, m => by
    simp only [List.cons_append, List.isPrefixOf, beq_self_eq_true, Bool.true_and]
    exact isPrefixOf_append_self as m

lemma parseURL_http (base : URLRec) (host path : List Char) (q : Option (List Char))
    (hh : host ≠ []) (hhc : ∀ c ∈ host, c ≠ '/' ∧ c ≠ '?' ∧ c ≠ '#')
    (hp : path = [] ∨ path.head? = some '/')
    (hpc : ∀ c ∈ path, c ≠ '?' ∧ c ≠ '#')
    (hqc : ∀ qq, q = some qq → ∀ c ∈ qq, c ≠ '#') :
    parseURL ((['h', 't', 't', 'p'] : List Char) ++ [':', '/', '/'] ++
        (host ++ path ++ queryPart q)) base =
      some ⟨['h', 't', 't', 'p'], host, path, q, none⟩ := by
  have hform : (['h', 't', 't', 'p'] : List Char) ++ [':', '/', '/'] ++
      (host ++ path ++ queryPart q) =
      (['h', 't', 't', 'p', ':', '/', '/'] : List Char) ++
        (host ++ path ++ queryPart q) := by
    simp
  rw [hform]
  unfold parseURL
  rw [if_neg (by simp)]
  rw [if_pos (isPrefixOf_append_self ['h', 't', 't', 'p', ':', '/', '/'] _)]
  have hdrop : ((['h', 't', 't', 'p', ':', '/', '/'] : List Char) ++
      (host ++ path ++ queryPart q)).drop 7 = host ++ path ++ queryPart q := by
    rw [show (7 : Nat) = (['h', 't', 't', 'p', ':', '/', '/'] : List Char).length from rfl]
    exact List.drop_left _ _
  rw [hdrop]
  exact parseAfterScheme_canonical _ host path q hh hhc hp hpc hqc

lemma parseURL_https (base : URLRec) (host path : List Char) (q : Option (List Char))
    (hh : host ≠ []) (hhc : ∀ c ∈ host, c ≠ '/' ∧ c ≠ '?' ∧ c ≠ '#')
    (hp : path = [] ∨ path.head? = some '/')
    (hpc : ∀ c ∈ path, c ≠ '?' ∧ c ≠ '#')
    (hqc : ∀ qq, q = some qq → ∀ c ∈ qq, c ≠ '#') :
    parseURL ((['h', 't', 't', 'p', 's'] : List Char) ++ [':', '/', '/'] ++
        (host ++ path ++ queryPart q)) base =
      some ⟨['h', 't', 't', 'p', 's'], host, path, q, none⟩ := by
  have hform : (['h', 't', 't', 'p', 's'] : List Char) ++ [':', '/', '/'] ++
      (host ++ path ++ queryPart q) =
      (['h', 't', 't', 'p', 's', ':', '/', '/'] : List Char) ++
        (host ++ path ++ queryPart q) := by
    simp
  rw [hform]
  unfold parseURL
  rw [if_neg (by simp)]
  have hno : (['h', 't', 't', 'p', ':', '/', '/'] : List Char).isPrefixOf
      ((['h', 't', 't', 'p', 's', ':', '/', '/'] : List Char) ++
        (host ++ path ++ queryPart q)) = false := rfl
  rw [if_neg (by rw [hno]; exact Bool.false_ne_true)]
  rw [if_pos (isPrefixOf_append_self ['h', 't', 't', 'p', 's', ':', '/', '/'] _)]
  have hdrop : ((['h', 't', 't', 'p', 's', ':', '/', '/'] : List Char) ++
      (host ++ path ++ queryPart q)).drop 8 = host ++ path ++ queryPart q := by
    rw [show (8 : Nat) = (['h', 't', 't', 'p', 's', ':', '/', '/'] : List Char).length from rfl]
    exact List.drop_left _ _
  rw [hdrop]
  exact parseAfterScheme_canonical _ host path q hh hhc hp hpc hqc

/- ### Parser output is well-formed -/

lemma good_of_hostChar {c : Char} (h : hostChar c = true) :
    c ≠ '/' ∧ c ≠ '?' ∧ c ≠ '#' := by
  simp only [hostChar, Bool.and_eq_true, bne_iff_ne, ne_eq] at h
  exact ⟨h.1.1, h.1.2, h.2⟩

lemma hostChar_false_cases {c : Char} (h : hostChar c = false) :
    c = '/' ∨ c = '?' ∨ c = '#' := by
  simp only [hostChar, Bool.and_eq_false_iff, bne_eq_false_iff_eq] at h
  tauto

lemma dirname_head : ∀ {l : List Char}, l.head? = some '/' →
    (dirname l).head? = some '/' := by
  intro l h
  cases l with
  | nil => simp at h
  | cons c cs =>
    simp only [List.head?_cons, Option.some.injEq] at h
    subst h
    by_cases hm : '/' ∈ cs
    · simp [dirname, hm]
    · simp [dirname, hm]

lemma dirname_subset : ∀ {l : List Char} {x : Char}, x ∈ dirname l →
    x ∈ l ∨ x = '/' := by
  intro l
  induction l with
  | nil => intro x hx; simp [dirname] at hx
  | cons c cs ih =>
    intro x hx
    by_cases hm : '/' ∈ cs
    · simp only [dirname, hm, if_pos, List.mem_cons] at hx
      rcases hx with h1 | h1
      · exact Or.inl (h1 ▸ List.mem_cons_self c cs)
      · rcases ih h1 with h2 | h2
        · exact Or.inl (List.mem_cons_of_mem c h2)
        · exact Or.inr h2
    · by_cases hc : c = '/'
      · have hd : dirname (c :: cs) = ['/'] := by simp [dirname, hm, hc]
        rw [hd] at hx
        simp only [List.mem_singleton] at hx
        exact Or.inr hx
      · have hd : dirname (c :: cs) = [] := by simp [dirname, hm, hc]
        rw [hd] at hx
        simp at hx

lemma head?_append_some {α : Type} {x : List α} {a : α} (y : List α)
    (h : x.head? = some a) : (x ++ y).head? = some a := by
  cases x with
  | nil => simp at h
  | cons b bs => simpa using h

lemma splitFirst_path_good (u : List Char) :
    ((splitFirst '?' (splitFirst '#' u).1).1 = [] ∨
      ((splitFirst '?' (splitFirst '#' u).1).1).head? = u.head?) ∧
    (∀ c ∈ (splitFirst '?' (splitFirst '#' u).1).1, c ≠ '?' ∧ c ≠ '#') ∧
    (∀ qq, (splitFirst '?' (splitFirst '#' u).1).2 = some qq →
      ∀ c ∈ qq, c ≠ '#') := by
  refine ⟨?_, ?_, ?_⟩
  · rcases splitFirst_fst_head '?' (splitFirst '#' u).1 with h1 | h1
    · exact Or.inl h1
    · rcases splitFirst_fst_head '#' u with h2 | h2
      · left
        rw [h2]
        rfl
      · rw [h2] at h1
        exact Or.inr h1
  · intro c hc
    exact ⟨splitFirst_fst_ne hc,
      splitFirst_fst_ne (splitFirst_fst_subset hc)⟩
  · intro qq hqq c hc
    exact splitFirst_fst_ne (splitFirst_snd_subset hqq hc)

lemma parseAfterScheme_WF {scheme rest : List Char} {r : URLRec}
    (hs : scheme = ['h', 't', 't', 'p'] ∨ scheme = ['h', 't', 't', 'p', 's'])
    (h : parseAfterScheme scheme rest = some r) : WFURL r := by
  unfold parseAfterScheme at h
  by_cases hh : rest.takeWhile hostChar = []
  · rw [if_pos hh] at h
    simp at h
  · simp only [hh, if_neg, reduceIte, Option.some.injEq] at h
    subst h
    obtain ⟨hhead, hpchars, hqchars⟩ :=
      splitFirst_path_good (rest.dropWhile hostChar)
    refine ⟨hs, hh, ?_, ?_, hpchars, hqchars⟩
    · intro c hc
      exact good_of_hostChar (List.mem_takeWhile_imp hc)
    · rcases hhead with h1 | h1
      · exact Or.inl h1
      · cases hq : ((splitFirst '?' (splitFirst '#' (rest.dropWhile hostChar)).1).1) with
        | nil => exact Or.inl rfl
        | cons a as =>
          right
          rw [hq] at h1
          simp only [List.head?_cons] at h1 ⊢
          have hfalse : hostChar a = false := dropWhile_head?_false h1.symm
          have hane : a ≠ '?' ∧ a ≠ '#' := by
            have := hpchars a (by rw [hq]; exact List.mem_cons_self a as)
            exact this
          rcases hostChar_false_cases hfalse with h2 | h2 | h2
          · rw [h2]
          · exact absurd h2 hane.1
          · exact absurd h2 hane.2

lemma parseURL_WF {u : List Char} {base r : URLRec} (hb : WFURL base)
    (h : parseURL u base = some r) : WFURL r := by
  unfold parseURL at h
  by_cases hu : u = []
  · simp only [hu, if_pos, reduceIte, Option.some.injEq] at h
    subst h
    exact ⟨hb.scheme_ok, hb.host_ne, hb.host_chars, hb.path_head,
      hb.path_chars, hb.query_chars⟩
  · rw [if_neg hu] at h
    by_cases h1 : (['h', 't', 't', 'p', ':', '/', '/'] : List Char).isPrefixOf u = true
    · rw [if_pos h1] at h
      exact parseAfterScheme_WF (Or.inl rfl) h
    · rw [if_neg h1] at h
      by_cases h2 : (['h', 't', 't', 'p', 's', ':', '/', '/'] : List Char).isPrefixOf u = true
      · rw [if_pos h2] at h
        exact parseAfterScheme_WF (Or.inr rfl) h
      · rw [if_neg h2] at h
        obtain ⟨hhead, hpchars, hqchars⟩ := splitFirst_path_good u
        by_cases h3 : ((splitFirst '?' (splitFirst '#' u).1).1).head? = some '/'
        · simp only [h3, if_pos, reduceIte, Option.some.injEq] at h
          subst h
          exact ⟨hb.scheme_ok, hb.host_ne, hb.host_chars, Or.inr h3,
            hpchars, hqchars⟩
        · simp only [h3, if_neg, reduceIte, Option.some.injEq] at h
          subst h
          refine ⟨hb.scheme_ok, hb.host_ne, hb.host_chars, ?_, ?_, hqchars⟩
          · right
            have hb' : (if base.path = [] then ['/'] else base.path).head? =
                some '/' := by
              by_cases hbp : base.path = []
              · simp [hbp]
              · rcases hb.path_head with h4 | h4
                · exact absurd h4 hbp
                · simpa [hbp] using h4
            exact head?_append_some _ (dirname_head hb')
          · intro c hc
            simp only [mergePath, List.mem_append] at hc
            rcases hc with hc | hc
            · rcases dirname_subset hc with h4 | h4
              · by_cases hbp : base.path = []
                · rw [hbp] at h4
                  simp only [if_pos, reduceIte, List.mem_singleton] at h4
                  subst h4
                  decide
                · rw [if_neg hbp] at h4
                  exact hb.path_chars c h4
              · subst h4
                decide
            · exact hpchars c hc

/- ### Idempotence analysis of `normalizeUrl` -/

lemma pathPart_ne_nil (p : List Char) : pathPart p ≠ [] := by
  unfold pathPart
  split
  · simp
  · assumption

lemma pathPart_head {p : List Char} (h : p = [] ∨ p.head? = some '/') :
    (pathPart p).head? = some '/' := by
  rcases h with h | h
  · subst h; rfl
  · by_cases hp : p = []
    · subst hp; rfl
    · rw [pathPart, if_neg hp]
      exact h

lemma pathPart_chars {p : List Char} (h : ∀ c ∈ p, c ≠ '?' ∧ c ≠ '#') :
    ∀ c ∈ pathPart p, c ≠ '?' ∧ c ≠ '#' := by
  intro c hc
  unfold pathPart at hc
  split at hc
  · simp only [List.mem_singleton] at hc
    subst hc
    exact ⟨by decide, by decide⟩
  · exact h c hc

lemma head?_dropLast {l : List Char} (h : l.dropLast ≠ []) :
    l.dropLast.head? = l.head? := by
  cases l with
  | nil => simp at h
  | cons a as =>
    cases as with
    | nil => simp at h
    | cons b bs => rw [List.dropLast_cons₂]; rfl

/-- A canonical absolute URL string with a non-empty path and no trailing
slash re-normalizes to itself. -/
lemma normalizeUrl_fix_nonempty (base : URLRec) (scheme host path : List Char)
    (q : Option (List Char))
    (hs : scheme = ['h', 't', 't', 'p'] ∨ scheme = ['h', 't', 't', 'p', 's'])
    (hh : host ≠ []) (hhc : ∀ c ∈ host, c ≠ '/' ∧ c ≠ '?' ∧ c ≠ '#')
    (hpne : path ≠ []) (hp : path.head? = some '/')
    (hpc : ∀ c ∈ path, c ≠ '?' ∧ c ≠ '#')
    (hqc : ∀ qq, q = some qq → ∀ c ∈ qq, c ≠ '#')
    (hsl : (scheme ++ [':', '/', '/'] ++
      (host ++ path ++ queryPart q)).getLast? ≠ some '/') :
    normalizeUrl (scheme ++ [':', '/', '/'] ++ (host ++ path ++ queryPart q)) base =
      scheme ++ [':', '/', '/'] ++ (host ++ path ++ queryPart q) := by
  have hparse : parseURL (scheme ++ [':', '/', '/'] ++
      (host ++ path ++ queryPart q)) base =
      some ⟨scheme, host, path, q, none⟩ := by
    rcases hs with h1 | h1 <;> subst h1
    · exact parseURL_http base host path q hh hhc (Or.inr hp) hpc hqc
    · exact parseURL_https base host path q hh hhc (Or.inr hp) hpc hqc
  have hWF : WFURL ⟨scheme, host, path, q, none⟩ :=
    ⟨hs, hh, hhc, Or.inr hp, hpc, hqc⟩
  simp only [normalizeUrl, hparse]
  rw [normalize_shape_none hWF rfl]
  have hser : serNF ⟨scheme, host, path, q, none⟩ =
      scheme ++ [':', '/', '/'] ++ (host ++ path ++ queryPart q) := by
    simp [serNF, pathPart, hpne]
  rw [hser, stripTrailingSlash_of_not_slash hsl]

/-- A canonical absolute URL string with no path at all re-normalizes to
itself: the serializer adds the "/" that the strip step removes again. -/
lemma normalizeUrl_fix_hostonly (base : URLRec) (scheme host : List Char)
    (hs : scheme = ['h', 't', 't', 'p'] ∨ scheme = ['h', 't', 't', 'p', 's'])
    (hh : host ≠ []) (hhc : ∀ c ∈ host, c ≠ '/' ∧ c ≠ '?' ∧ c ≠ '#') :
    normalizeUrl (scheme ++ [':', '/', '/'] ++ host) base =
      scheme ++ [':', '/', '/'] ++ host := by
  have heq : scheme ++ [':', '/', '/'] ++ host =
      scheme ++ [':', '/', '/'] ++ (host ++ [] ++ queryPart none) := by
    simp [queryPart]
  have hparse : parseURL (scheme ++ [':', '/', '/'] ++ host) base =
      some ⟨scheme, host, [], none, none⟩ := by
    rw [heq]
    rcases hs with h1 | h1 <;> subst h1
    · exact parseURL_http base host [] none hh hhc (Or.inl rfl)
        (by simp) (by simp)
    · exact parseURL_https base host [] none hh hhc (Or.inl rfl)
        (by simp) (by simp)
  have hWF : WFURL ⟨scheme, host, [], none, none⟩ :=
    ⟨hs, hh, hhc, Or.inl rfl, by simp, by simp⟩
  simp only [normalizeUrl, hparse]
  rw [normalize_shape_none hWF rfl]
  have hser : serNF ⟨scheme, host, [], none, none⟩ =
      (scheme ++ [':', '/', '/'] ++ host) ++ ['/'] := by
    simp [serNF, pathPart, queryPart, List.append_assoc]
  rw [hser]
  rw [stripTrailingSlash, if_pos (List.getLast?_concat _)]
  exact List.dropLast_concat

/-- The fragment-free serialization of a well-formed URL record with no
trailing slash re-normalizes to itself. -/
lemma normalizeUrl_fix_serNF (base r : URLRec) (hWF : WFURL r)
    (hsl : (serNF r).getLast? ≠ some '/') :
    normalizeUrl (serNF r) base = serNF r := by
  have hser : serNF r = r.scheme ++ [':', '/', '/'] ++
      (r.host ++ pathPart r.path ++ queryPart r.query) := rfl
  rw [hser] at hsl ⊢
  exact normalizeUrl_fix_nonempty base r.scheme r.host (pathPart r.path) r.query
    hWF.scheme_ok hWF.host_ne hWF.host_chars (pathPart_ne_nil r.path)
    (pathPart_head hWF.path_head) (pathPart_chars hWF.path_chars)
    hWF.query_chars hsl

/-- C7 (amended): `normalizeUrl` is idempotent on every input whose first
normalization is non-empty and does not end in '/'.  (The two excluded
situations are exactly the counterexample families: an unparseable input
normalizes to "" which re-normalizes to the base, and a fragment directly
after a slash leaves a trailing slash that a second pass strips.) -/
theorem c7_normalize_idempotent_amended (u : List Char) (base : URLRec)
    (hb : WFURL base)
    (hne : normalizeUrl u base ≠ [])
    (hsl : (normalizeUrl u base).getLast? ≠ some '/') :
    normalizeUrl (normalizeUrl u base) base = normalizeUrl u base := by
  cases hp : parseURL u base with
  | none =>
    simp only [normalizeUrl, hp] at hne
    exact absurd rfl hne
  | some r =>
    have hWF := parseURL_WF hb hp
    have hn : normalizeUrl u base =
        cutFragment (stripTrailingSlash (serializeURL r)) := by
      simp only [normalizeUrl, hp]
    rw [hn] at hsl ⊢
    cases hf : r.fragment with
    | some f =>
      rw [normalize_shape_some hWF hf] at hsl ⊢
      exact normalizeUrl_fix_serNF base r hWF hsl
    | none =>
      rw [normalize_shape_none hWF hf] at hsl ⊢
      by_cases hl : (serNF r).getLast? = some '/'
      · rw [stripTrailingSlash, if_pos hl] at hsl ⊢
        cases hq : r.query with
        | some qq =>
          have hxq : serNF r = (r.scheme ++ [':', '/', '/'] ++
              (r.host ++ pathPart r.path)) ++ '?' :: qq := by
            simp [serNF, hq, queryPart, List.append_assoc]
          have hqqne : qq ≠ [] := by
            intro hqe
            subst hqe
            rw [hxq, show ('?' :: ([] : List Char)) = ['?'] from rfl,
              List.getLast?_concat] at hl
            exact absurd hl (by decide)
          have hdl : (serNF r).dropLast =
              serNF ⟨r.scheme, r.host, r.path, some qq.dropLast, none⟩ := by
            rw [hxq, List.dropLast_append_of_ne_nil _ (List.cons_ne_nil '?' qq)]
            cases qq with
            | nil => exact absurd rfl hqqne
            | cons g gs =>
              rw [List.dropLast_cons₂]
              simp [serNF, queryPart, List.append_assoc]
          rw [hdl] at hsl ⊢
          refine normalizeUrl_fix_serNF base _ ?_ hsl
          refine ⟨hWF.scheme_ok, hWF.host_ne, hWF.host_chars, hWF.path_head,
            hWF.path_chars, ?_⟩
          intro qq2 hqq2 c hc
          simp only [Option.some.injEq] at hqq2
          subst hqq2
          exact hWF.query_chars qq hq c (List.dropLast_subset qq hc)
        | none =>
          have hxq : serNF r = (r.scheme ++ [':', '/', '/'] ++ r.host) ++
              pathPart r.path := by
            simp [serNF, hq, queryPart, List.append_assoc]
          have hplast : (pathPart r.path).getLast? = some '/' := by
            rw [hxq, List.getLast?_append_of_ne_nil _
              (pathPart_ne_nil r.path)] at hl
            exact hl
          by_cases hPd : (pathPart r.path).dropLast = []
          · have hPeq : pathPart r.path = ['/'] := by
              have h2 := List.dropLast_append_getLast? '/' hplast
              rw [hPd] at h2
              simpa using h2.symm
            have hdl : (serNF r).dropLast =
                r.scheme ++ [':', '/', '/'] ++ r.host := by
              rw [hxq, hPeq]
              exact List.dropLast_concat
            rw [hdl] at hsl ⊢
            exact normalizeUrl_fix_hostonly base r.scheme r.host
              hWF.scheme_ok hWF.host_ne hWF.host_chars
          · have hdl : (serNF r).dropLast =
                serNF ⟨r.scheme, r.host, (pathPart r.path).dropLast, none, none⟩ := by
              rw [hxq, List.dropLast_append_of_ne_nil _ (pathPart_ne_nil r.path)]
              have hpp : pathPart ((pathPart r.path).dropLast) =
                  (pathPart r.path).dropLast := by
                rw [pathPart, if_neg hPd]
              simp [serNF, queryPart, hpp, List.append_assoc]
            rw [hdl] at hsl ⊢
            refine normalizeUrl_fix_serNF base _ ?_ hsl
            refine ⟨hWF.scheme_ok, hWF.host_ne, hWF.host_chars, ?_, ?_, ?_⟩
            · right
              rw [head?_dropLast hPd]
              exact pathPart_head hWF.path_head
            · intro c hc
              exact pathPart_chars hWF.path_chars c
                (List.dropLast_subset (pathPart r.path) hc)
            · intro qq2 hqq2
              cases hqq2
      · rw [stripTrailingSlash_of_not_slash hl] at hsl ⊢
        exact normalizeUrl_fix_serNF base r hWF hsl

/-- C7 counterexample: normalization is not idempotent as stated.  For the
input "http://e.com/#" the first pass yields "http://e.com/" (the fragment
is cut after the trailing-slash strip already ran), and the second pass
strips the now-trailing slash, yielding "http://e.com". -/
theorem c7_counterexample :
    normalizeUrl
        (normalizeUrl
          ['h', 't', 't', 'p', ':', '/', '/', 'e', '.', 'c', 'o', 'm', '/', '#']
          ⟨['h', 't', 't', 'p'], ['e', '.', 'c', 'o', 'm'], [], none, none⟩)
        ⟨['h', 't', 't', 'p'], ['e', '.', 'c', 'o', 'm'], [], none, none⟩ ≠
      normalizeUrl
        ['h', 't', 't', 'p', ':', '/', '/', 'e', '.', 'c', 'o', 'm', '/', '#']
        ⟨['h', 't', 't', 'p'], ['e', '.', 'c', 'o', 'm'], [], none, none⟩ := by
  decide

/-- Witness for the amended C7 at the concrete input "http://e.com/x". -/
theorem c7_normalize_idempotent_amended_witness :
    normalizeUrl
        ['h', 't', 't', 'p', ':', '/', '/', 'e', '.', 'c', 'o', 'm', '/', 'x']
        ⟨['h', 't', 't', 'p'], ['e', '.', 'c', 'o', 'm'], [], none, none⟩ ≠ [] ∧
    (normalizeUrl
        ['h', 't', 't', 'p', ':', '/', '/', 'e', '.', 'c', 'o', 'm', '/', 'x']
        ⟨['h', 't', 't', 'p'], ['e', '.', 'c', 'o', 'm'], [], none, none⟩).getLast? ≠
      some '/' ∧
    normalizeUrl
        (normalizeUrl
          ['h', 't', 't', 'p', ':', '/', '/', 'e', '.', 'c', 'o', 'm', '/', 'x']
          ⟨['h', 't', 't', 'p'], ['e', '.', 'c', 'o', 'm'], [], none, none⟩)
        ⟨['h', 't', 't', 'p'], ['e', '.', 'c', 'o', 'm'], [], none, none⟩ =
      normalizeUrl
        ['h', 't', 't', 'p', ':', '/', '/', 'e', '.', 'c', 'o', 'm', '/', 'x']
        ⟨['h', 't', 't', 'p'], ['e', '.', 'c', 'o', 'm'], [], none, none⟩ :=
  ⟨by decide, by decide,
    c7_normalize_idempotent_amended
      ['h', 't', 't', 'p', ':', '/', '/', 'e', '.', 'c', 'o', 'm', '/', 'x']
      ⟨['h', 't', 't', 'p'], ['e', '.', 'c', 'o', 'm'], [], none, none⟩
      ⟨Or.inl rfl, by decide, by decide, Or.inl rfl, by decide,
        fun q hq => nomatch hq⟩
      (by decide) (by decide)⟩

/-- C10: `normalizeUrl` is total (it is a Lean function into `List Char`,
so it cannot throw) and returns the empty string whenever the input cannot
be parsed as a URL relative to the given base (the `catch` branch of the
source). -/
theorem c10_normalize_total_on_parse_failure (u : List Char) (base : URLRec)
    (h : parseURL u base = none) : normalizeUrl u base = [] := by
  simp [normalizeUrl, h]

/-- Witness for C10 at the concrete unparseable input "http://" (empty
host). -/
theorem c10_normalize_total_on_parse_failure_witness :
    parseURL ['h', 't', 't', 'p', ':', '/', '/']
        ⟨['h', 't', 't', 'p'], ['e', '.', 'c', 'o', 'm'], [], none, none⟩ = none ∧
    normalizeUrl ['h', 't', 't', 'p', ':', '/', '/']
        ⟨['h', 't', 't', 'p'], ['e', '.', 'c', 'o', 'm'], [], none, none⟩ = [] :=
  ⟨by decide,
    c10_normalize_total_on_parse_failure ['h', 't', 't', 'p', ':', '/', '/']
      ⟨['h', 't', 't', 'p'], ['e', '.', 'c', 'o', 'm'], [], none, none⟩
      (by decide)⟩

/- ## Crawler 1: `crawlRecursive` / `crawlWebsite` (src/src/crawling.ts)

`crawlRecursive` is fully sequential in the source (each recursive call is
awaited), so the embedding is a direct recursive function.  The fetch
oracle models `crawlSingleUrl`: `none` is a thrown navigation/extraction
error, `some links` is a successful fetch with its discovered URLs (the
markdown content plays no role in the claims and is elided).  The state
carries the source's `visited` set and `pagesCrawled.count`, plus two
ghost logs: `attempts` (every URL passed to `crawlSingleUrl`) and
`successes` (every URL whose fetch succeeded, i.e. exactly the increments
of `count`).

The recursion is bounded by depth; we realize it structurally with a fuel
argument `fuel = maxDepth + 1 - depth` (the wrapper `crawlRecursive`
supplies it), so that concrete runs compute by kernel reduction.  At
`fuel = 0` the source's `depth > maxDepth` guard fires; both return the
state unchanged. -/

structure CrawlSt where
  visited : List (List Char)
  count : Nat
  attempts : List (List Char)
  successes : List (List Char)
deriving DecidableEq, Repr

def crawlRecAux (fetch : List Char → Option (List (List Char)))
    (maxDepth maxPages : Nat) : Nat → List Char → Nat → CrawlSt → CrawlSt
  | 0, _, _, st => st
  | fuel + 1, url, depth, st =>
    if url ∈ st.visited then st
    else if maxDepth < depth then st
    else if maxPages ≤ st.count then st
    else
      let st1 : CrawlSt := { st with visited := url :: st.visited,
                                     attempts := st.attempts ++ [url] }
      match fetch url with
      | none => st1
      | some links =>
        links.foldl
          (fun s l =>
            if l ∈ s.visited then s
            else crawlRecAux fetch maxDepth maxPages fuel l (depth + 1) s)
          { st1 with count := st1.count + 1, successes := st1.successes ++ [url] }

def crawlRecursive (fetch : List Char → Option (List (List Char)))
    (maxDepth maxPages : Nat) (url : List Char) (depth : Nat)
    (st : CrawlSt) : CrawlSt :=
  crawlRecAux fetch maxDepth maxPages (maxDepth + 1 - depth) url depth st

/-- `crawlWebsite` from src/src/crawling.ts with the depth and page caps as
parameters: the initial URL is fetched unconditionally (a failure there
aborts the whole crawl via the catch), then every discovered URL is crawled
through `crawlRecursive` at depth 1. -/
def crawlWebsiteWith (fetch : List Char → Option (List (List Char)))
    (maxDepth maxPages : Nat) (url : List Char) : CrawlSt :=
  match fetch url with
  | none => { visited := [], count := 0, attempts := [url], successes := [] }
  | some links =>
    let st0 : CrawlSt := { visited := [url], count := 1,
                           attempts := [url], successes := [url] }
    links.foldl
      (fun s l => crawlRecursive fetch maxDepth maxPages l 1 s) st0

/-- The source `crawlWebsite` hardcodes `maxDepth = 2`, `maxPages = 500`. -/
def crawlWebsite (fetch : List Char → Option (List (List Char)))
    (url : List Char) : CrawlSt :=
  crawlWebsiteWith fetch 2 500 url

lemma foldl_preserve {β : Type} (P : CrawlSt → Prop) (f : CrawlSt → β → CrawlSt)
    (hf : ∀ s b, P s → P (f s b)) :
    ∀ (ls : List β) (s : CrawlSt), P s → P (ls.foldl f s)
  | [], _, hs => hs
  | b :: bs, s, hs => foldl_preserve P f hf bs (f s b) (hf s b hs)

lemma nodup_append_singleton {α : Type} {l : List α} {a : α}
    (h1 : l.Nodup) (h2 : a ∉ l) : (l ++ [a]).Nodup := by
  simp [List.nodup_append, h1, h2]

/-- The success-count invariant of `crawlRecAux`: the page counter never
exceeds the cap and always equals the number of successful fetches. -/
lemma crawlRecAux_count_inv (fetch : List Char → Option (List (List Char)))
    (maxDepth maxPages : Nat) :
    ∀ (fuel : Nat) (url : List Char) (depth : Nat) (st : CrawlSt),
      st.count ≤ maxPages → st.count = st.successes.length →
      (crawlRecAux fetch maxDepth maxPages fuel url depth st).count ≤ maxPages ∧
        (crawlRecAux fetch maxDepth maxPages fuel url depth st).count =
          (crawlRecAux fetch maxDepth maxPages fuel url depth st).successes.length := by
  intro fuel
  induction fuel with
  | zero => intro url depth st h1 h2; exact ⟨h1, h2⟩
  | succ fuel ih =>
    intro url depth st h1 h2
    rw [crawlRecAux]
    by_cases hv : url ∈ st.visited
    · rw [if_pos hv]; exact ⟨h1, h2⟩
    · rw [if_neg hv]
      by_cases hd : maxDepth < depth
      · rw [if_pos hd]; exact ⟨h1, h2⟩
      · rw [if_neg hd]
        by_cases hc : maxPages ≤ st.count
        · rw [if_pos hc]; exact ⟨h1, h2⟩
        · rw [if_neg hc]
          cases hf : fetch url with
          | none => exact ⟨h1, h2⟩
          | some links =>
            have hP := foldl_preserve
              (fun s => s.count ≤ maxPages ∧ s.count = s.successes.length)
              (fun s l =>
                if l ∈ s.visited then s
                else crawlRecAux fetch maxDepth maxPages fuel l (depth + 1) s)
              (by
                intro s l hs
                dsimp only
                by_cases hl : l ∈ s.visited
                · rw [if_pos hl]; exact hs
                · rw [if_neg hl]
                  exact ih l (depth + 1) s hs.1 hs.2)
              links
              { visited := url :: st.visited, count := st.count + 1,
                attempts := st.attempts ++ [url],
                successes := st.successes ++ [url] }
              ⟨by show st.count + 1 ≤ maxPages; omega,
               by show st.count + 1 = (st.successes ++ [url]).length; simp [h2]⟩
            exact hP

/-- The no-double-fetch invariant of `crawlRecAux`: the attempts log stays
duplicate-free and every attempted URL is in the visited set. -/
lemma crawlRecAux_nodup_inv (fetch : List Char → Option (List (List Char)))
    (maxDepth maxPages : Nat) :
    ∀ (fuel : Nat) (url : List Char) (depth : Nat) (st : CrawlSt),
      st.attempts.Nodup → (∀ a ∈ st.attempts, a ∈ st.visited) →
      (crawlRecAux fetch maxDepth maxPages fuel url depth st).attempts.Nodup ∧
        (∀ a ∈ (crawlRecAux fetch maxDepth maxPages fuel url depth st).attempts,
          a ∈ (crawlRecAux fetch maxDepth maxPages fuel url depth st).visited) := by
  intro fuel
  induction fuel with
  | zero => intro url depth st h1 h2; exact ⟨h1, h2⟩
  | succ fuel ih =>
    intro url depth st h1 h2
    rw [crawlRecAux]
    by_cases hv : url ∈ st.visited
    · rw [if_pos hv]; exact ⟨h1, h2⟩
    · rw [if_neg hv]
      by_cases hd : maxDepth < depth
      · rw [if_pos hd]; exact ⟨h1, h2⟩
      · rw [if_neg hd]
        by_cases hc : maxPages ≤ st.count
        · rw [if_pos hc]; exact ⟨h1, h2⟩
        · rw [if_neg hc]
          have hnotatt : url ∉ st.attempts := fun hmem => hv (h2 url hmem)
          have h1' : (st.attempts ++ [url]).Nodup :=
            nodup_append_singleton h1 hnotatt
          have h2' : ∀ a ∈ st.attempts ++ [url], a ∈ url :: st.visited := by
            intro a ha
            rcases List.mem_append.mp ha with ha | ha
            · exact List.mem_cons_of_mem url (h2 a ha)
            · simp only [List.mem_singleton] at ha
              exact ha ▸ List.mem_cons_self url st.visited
          cases hf : fetch url with
          | none => exact ⟨h1', h2'⟩
          | some links =>
            have hP := foldl_preserve
              (fun s => s.attempts.Nodup ∧ ∀ a ∈ s.attempts, a ∈ s.visited)
              (fun s l =>
                if l ∈ s.visited then s
                else crawlRecAux fetch maxDepth maxPages fuel l (depth + 1) s)
              (by
                intro s l hs
                dsimp only
                by_cases hl : l ∈ s.visited
                · rw [if_pos hl]; exact hs
                · rw [if_neg hl]
                  exact ih l (depth + 1) s hs.1 hs.2)
              links
              { visited := url :: st.visited, count := st.count + 1,
                attempts := st.attempts ++ [url],
                successes := st.successes ++ [url] }
              ⟨h1', h2'⟩
            exact hP

/-- C5 counterexample: with page cap P = 2, a run whose root page succeeds
and lists three links that all fail to fetch attempts 4 URLs: the counter
`pagesCrawled.count` is incremented only on success, so failed attempts
never count against the cap. -/
theorem c5_counterexample :
    ¬ ((crawlWebsiteWith
        (fun u => if u = ['r'] then some [['a'], ['b'], ['c']] else none)
        2 2 ['r']).attempts.length ≤ 2) := by
  decide

/-- C5 (amended): the number of successfully fetched pages in a crawl run
never exceeds the page cap (provided the cap is at least 1, since the
initial page is fetched unconditionally); the total number of attempted
URLs, counting failures, is not bounded by the cap. -/
theorem c5_page_cap_amended (fetch : List Char → Option (List (List Char)))
    (maxDepth maxPages : Nat) (url : List Char) (h : 1 ≤ maxPages) :
    (crawlWebsiteWith fetch maxDepth maxPages url).successes.length ≤ maxPages := by
  unfold crawlWebsiteWith
  cases hf : fetch url with
  | none => simp
  | some links =>
    dsimp only
    have hP := foldl_preserve
      (fun s => s.count ≤ maxPages ∧ s.count = s.successes.length)
      (fun s l => crawlRecursive fetch maxDepth maxPages l 1 s)
      (by
        intro s l hs
        dsimp only
        unfold crawlRecursive
        exact crawlRecAux_count_inv fetch maxDepth maxPages _ l 1 s hs.1 hs.2)
      links
      { visited := [url], count := 1, attempts := [url], successes := [url] }
      ⟨h, by simp⟩
    omega

/-- Witness for the amended C5 at a concrete run. -/
theorem c5_page_cap_amended_witness :
    1 ≤ 2 ∧
    (crawlWebsiteWith
        (fun u => if u = ['r'] then some [['a'], ['b'], ['c']] else none)
        2 2 ['r']).successes.length ≤ 2 :=
  ⟨by decide,
   c5_page_cap_amended
     (fun u => if u = ['r'] then some [['a'], ['b'], ['c']] else none)
     2 2 ['r'] (by decide)⟩

/-- C6 (amended, for src/src/crawling.ts): over a whole `crawlWebsite` run,
no URL is ever passed to `crawlSingleUrl` twice — the visited set is
checked and extended before each fetch. -/
theorem c6_no_double_fetch_amended (fetch : List Char → Option (List (List Char)))
    (maxDepth maxPages : Nat) (url : List Char) :
    (crawlWebsiteWith fetch maxDepth maxPages url).attempts.Nodup := by
  unfold crawlWebsiteWith
  cases hf : fetch url with
  | none => simp
  | some links =>
    dsimp only
    have hP := foldl_preserve
      (fun s => s.attempts.Nodup ∧ ∀ a ∈ s.attempts, a ∈ s.visited)
      (fun s l => crawlRecursive fetch maxDepth maxPages l 1 s)
      (by
        intro s l hs
        dsimp only
        unfold crawlRecursive
        exact crawlRecAux_nodup_inv fetch maxDepth maxPages _ l 1 s hs.1 hs.2)
      links
      { visited := [url], count := 1, attempts := [url], successes := [url] }
      ⟨by simp, by simp⟩
    exact hP.1

/- ## Crawler 2: the axios/cheerio `WebsiteCrawler.crawl` (first class in the
unnamed crawler module, lines 403-445)

The base task normalizes the base URL, checks-and-adds it to the visited
set, processes it and then synchronously enqueues one task per discovered
link, guarding only with the visited set as it is at enqueue time (the
enqueued tasks add to the set when they later run, and do not re-check).
JS runs the enqueue loop atomically, so the guard sees exactly the visited
set of the base task; the queued tasks then run, in order.  A fetch oracle
`none` models a failed `processPage` (which records an error and returns
null).  `attempts` is a ghost log of every URL passed to `processPage`. -/

inductive JobStatus
  | running
  | completed
  | failed
deriving DecidableEq, Repr

structure CrawlJobSt where
  status : JobStatus
  visited : List (List Char)
  pagesProcessed : Nat
  errors : List (List Char)
  attempts : List (List Char)
deriving DecidableEq, Repr

def crawlV1 (fetch : List Char → Option (List (List Char)))
    (base : URLRec) : CrawlJobSt :=
  let n := normalizeUrl (serializeURL base) base
  let st0 : CrawlJobSt := { status := .running, visited := [n],
                            pagesProcessed := 0, errors := [], attempts := [n] }
  let st1 :=
    match fetch n with
    | none => { st0 with errors := st0.errors ++ [n] }
    | some links =>
      let stA := { st0 with pagesProcessed := 1 }
      let queued := links.filter (fun l => !(st0.visited.contains l))
      queued.foldl
        (fun s l =>
          let s1 := { s with visited := l :: s.visited,
                             attempts := s.attempts ++ [l] }
          match fetch l with
          | none => { s1 with errors := s1.errors ++ [l] }
          | some _ => { s1 with pagesProcessed := s1.pagesProcessed + 1 })
        stA
  { st1 with status := .completed }

/-- C6 counterexample: in the first `WebsiteCrawler.crawl`, a page that
lists the same link twice gets that link enqueued twice (the visited check
happens only at enqueue time, and the queued task does not re-check), so
the URL is fetched twice within one job. -/
theorem c6_counterexample :
    ¬ (crawlV1
        (fun u => if u = ['h', 't', 't', 'p', ':', '/', '/', 'e']
                  then some [['a'], ['a']] else none)
        ⟨['h', 't', 't', 'p'], ['e'], [], none, none⟩).attempts.Nodup := by
  decide

/- ## Crawler 3: the puppeteer `WebsiteCrawler.crawl` (second class in the
unnamed crawler module, lines 618-682)

`processUrl` normalizes its URL and re-checks the visited set at execution
time; discovered links are enqueued at `depth + 1` while `depth <
MAX_DEPTH` (2).  The task queue is modelled as a FIFO worklist processed
sequentially with explicit fuel: `none` means the queue did not drain
within the fuel (the claims only concern drained runs).  After the queue
drains the job is marked `failed` exactly when zero pages were processed
(pushing a default error message if none was recorded), `completed`
otherwise. -/

def processUrlV2 (fetch : List Char → Option (List (List Char)))
    (base : URLRec) (item : List Char × Nat) (st : CrawlJobSt) :
    CrawlJobSt × List (List Char × Nat) :=
  let n := normalizeUrl item.1 base
  if n ∈ st.visited then (st, [])
  else
    let st1 := { st with visited := n :: st.visited,
                         attempts := st.attempts ++ [n] }
    match fetch n with
    | none => ({ st1 with errors := st1.errors ++ [n] }, [])
    | some links =>
      let st2 := { st1 with pagesProcessed := st1.pagesProcessed + 1 }
      if item.2 < 2 then
        (st2, (links.filter (fun l => !(st2.visited.contains l))).map
          (fun l => (l, item.2 + 1)))
      else (st2, [])

def runQueueV2 (fetch : List Char → Option (List (List Char)))
    (base : URLRec) : Nat → List (List Char × Nat) → CrawlJobSt →
      Option CrawlJobSt
  | _, [], st => some st
  | 0, _ :: _, _ => none
  | fuel + 1, item :: rest, st =>
    let step := processUrlV2 fetch base item st
    runQueueV2 fetch base fuel (rest ++ step.2) step.1

def finalizeV2 (st : CrawlJobSt) : CrawlJobSt :=
  if st.pagesProcessed = 0 then
    { st with
      status := JobStatus.failed,
      errors := if st.errors = []
        then ["Crawl failed: No pages were processed successfully".toList]
        else st.errors }
  else { st with status := JobStatus.completed }

def crawlV2 (fetch : List Char → Option (List (List Char)))
    (base : URLRec) (fuel : Nat) : Option CrawlJobSt :=
  (runQueueV2 fetch base fuel [(serializeURL base, 0)]
    { status := .running, visited := [], pagesProcessed := 0,
      errors := [], attempts := [] }).map finalizeV2

/-- C4: for every crawl job whose queue drains (no unrecoverable startup
error), the final status is `failed` iff zero pages were processed, and
with at least one processed page the status is `completed` regardless of
the error list. -/
theorem c4_crawl_final_status (fetch : List Char → Option (List (List Char)))
    (base : URLRec) (fuel : Nat) (st : CrawlJobSt)
    (h : crawlV2 fetch base fuel = some st) :
    (st.status = .failed ↔ st.pagesProcessed = 0) ∧
      (st.pagesProcessed ≠ 0 → st.status = .completed) := by
  unfold crawlV2 at h
  rw [Option.map_eq_some'] at h
  obtain ⟨st0, _, hst⟩ := h
  subst hst
  unfold finalizeV2
  by_cases h0 : st0.pagesProcessed = 0
  · rw [if_pos h0]
    constructor
    · constructor
      · intro _; exact h0
      · intro _; rfl
    · intro hne
      exact absurd h0 hne
  · rw [if_neg h0]
    constructor
    · constructor
      · intro hf
        simp only [CrawlJobSt.mk.injEq] at hf
        exact absurd hf (by decide)
      · intro hz; exact absurd hz h0
    · intro _; rfl

/-- Witness for C4: a drained run in which every fetch fails ends with
status `failed` and zero pages. -/
theorem c4_crawl_final_status_witness :
    crawlV2 (fun _ => none) ⟨['h', 't', 't', 'p'], ['e'], [], none, none⟩ 2 =
      some { status := .failed,
             visited := [['h', 't', 't', 'p', ':', '/', '/', 'e']],
             pagesProcessed := 0,
             errors := [['h', 't', 't', 'p', ':', '/', '/', 'e']],
             attempts := [['h', 't', 't', 'p', ':', '/', '/', 'e']] } ∧
    ({ status := .failed,
       visited := [['h', 't', 't', 'p', ':', '/', '/', 'e']],
       pagesProcessed := 0,
       errors := [['h', 't', 't', 'p', ':', '/', '/', 'e']],
       attempts := [['h', 't', 't', 'p', ':', '/', '/', 'e']] } : CrawlJobSt).status =
        .failed :=
  ⟨by decide,
   ((c4_crawl_final_status (fun _ => none)
      ⟨['h', 't', 't', 'p'], ['e'], [], none, none⟩ 2 _ (by decide)).1).mpr rfl⟩

/- ## Qdrant chunk store: `saveChunksToQdrant` (src/src/data.ts, lines 167-202)

The Qdrant client is an external collaborator; we model a collection as a
list of points, and `upsert` with its documented semantics: a point whose
id already exists is replaced, otherwise it is appended.
`crypto.randomUUID()` is modelled by a fresh-id counter carried in the
state: every call yields ids distinct from all ids ever produced, which is
the defining property of the random UUIDs (collisions are ignored exactly
as the source ignores them).  Upserting in batches of 20 is sequentially
identical to upserting one by one, so the batching loop is elided.
The chunk text is kept at word level, matching `chunkMarkdownSlidingWindow`. -/

structure QPoint where
  id : Nat
  url : List Char
  chunkId : List Char
  content : List (List Char)
deriving DecidableEq, Repr

structure QdrantState where
  points : List QPoint
  nextId : Nat
deriving DecidableEq, Repr

def upsertPoint (ps : List QPoint) (p : QPoint) : List QPoint :=
  if ps.any (fun q => q.id == p.id) then
    ps.map (fun q => if q.id == p.id then p else q)
  else ps ++ [p]

def qdrantUpsert (ps : List QPoint) (batch : List QPoint) : List QPoint :=
  batch.foldl upsertPoint ps

def saveChunksToQdrant (st : QdrantState) (url : List Char)
    (words : List (List Char)) : QdrantState :=
  let chunks := chunkMarkdownSlidingWindow words
  let allPoints : List QPoint := chunks.mapIdx (fun idx c =>
    { id := st.nextId + idx,
      url := url,
      chunkId := url ++ "#chunk-".toList ++ (toString idx).toList,
      content := c })
  { points := qdrantUpsert st.points allPoints,
    nextId := st.nextId + allPoints.length }

def qdrantCountForUrl (st : QdrantState) (url : List Char) : Nat :=
  (st.points.filter (fun p => p.url == url)).length

/- ## IndexDatabase (file-based chunk index, second class of the unnamed
index-db module)

`splitIntoChunks` splits text into sentences with the regex
`/[^.!?]+[.!?]+/g` (falling back to the whole text when there is no match)
and then packs sentences into chunks of at most ~6000 characters,
separating them with a space and trimming each emitted chunk.  The global
regex match is embedded as a structural scanner: a match is a maximal run
of non-terminators followed by a maximal run of terminators; characters
before the first non-terminator and an unterminated trailing fragment are
not part of any match, exactly as the regex engine behaves. -/

def isSentTerm (c : Char) : Bool := c == '.' || c == '!' || c == '?'

def sentencesGo (cur : List Char) (inTerm : Bool) : List Char → List (List Char)
  | [] => if inTerm then [cur] else []
  | c :: cs =>
    if isSentTerm c then
      if cur.isEmpty then sentencesGo [] false cs
      else sentencesGo (cur ++ [c]) true cs
    else
      if inTerm then cur :: sentencesGo [c] false cs
      else sentencesGo (cur ++ [c]) false cs

/-- `text.match(/[^.!?]+[.!?]+/g) || [text]`. -/
def splitSentences (text : List Char) : List (List Char) :=
  let s := sentencesGo [] false text
  if s.isEmpty then [text] else s

def trimChars (l : List Char) : List Char :=
  ((l.dropWhile Char.isWhitespace).reverse.dropWhile Char.isWhitespace).reverse

def splitIntoChunks (text : List Char) : List (List Char) :=
  let sentences := splitSentences text
  let r := sentences.foldl
    (fun (acc : List (List Char) × List Char) sentence =>
      let acc2 :=
        if 6000 < (acc.2 ++ sentence).length ∧ 0 < acc.2.length then
          (acc.1 ++ [trimChars acc.2], ([] : List Char))
        else acc
      (acc2.1, acc2.2 ++ sentence ++ [' ']))
    ([], [])
  if 0 < (trimChars r.2).length then r.1 ++ [trimChars r.2] else r.1

/- ### `indexDocuments`

`indexDocuments` reads each JSON file of the source directory, skips
files that fail to parse (modelled by `doc = none`) or whose content is
empty/whitespace, splits the content into chunks, embeds each chunk
(`createEmbeddings`; the OpenAI call is the external parameter `emb`,
whose zero-vector fallback is one possible value of it), and overwrites
`<basename>.index.json` with the chunk list.  The index directory is
modelled as an association list from file name to chunk list (the
`.index.json` renaming is a bijection on names and is elided);
`fs.writeFile` replaces the entry in place or appends a new one. -/

structure Document where
  url : List Char
  title : List Char
  content : List Char
deriving DecidableEq, Repr

structure FileEntry where
  name : List Char
  doc : Option Document
deriving DecidableEq, Repr

structure DocumentChunk where
  id : List Char
  url : List Char
  title : List Char
  content : List Char
  embedding : List ℚ
deriving DecidableEq, Repr

abbrev IndexStore : Type := List (List Char × List DocumentChunk)

def writeStore : IndexStore → List Char → List DocumentChunk → IndexStore
  | [], k, v => [(k, v)]
  | e :: rest, k, v =>
    if e.1 == k then (k, v) :: rest else e :: writeStore rest k v

def lookupStore (store : IndexStore) (key : List Char) :
    Option (List DocumentChunk) :=
  (store.find? (fun e => e.1 == key)).map (fun e => e.2)

def mkDocumentChunks (emb : List Char → List ℚ) (doc : Document)
    (fileId : List Char) : List DocumentChunk :=
  (splitIntoChunks doc.content).mapIdx (fun idx c =>
    { id := (if doc.url.isEmpty then fileId else doc.url) ++
        "_chunk_".toList ++ (toString idx).toList,
      url := doc.url,
      title := if doc.title.isEmpty then "Untitled".toList else doc.title,
      content := c,
      embedding := emb c })

/-- The chunk list a file contributes, or `none` when the file is skipped
(unparseable, or empty/whitespace-only content). -/
def fileChunks (emb : List Char → List ℚ) (f : FileEntry) :
    Option (List DocumentChunk) :=
  match f.doc with
  | none => none
  | some doc =>
    if (trimChars doc.content).isEmpty then none
    else some (mkDocumentChunks emb doc f.name)

def indexDocumentsStep (emb : List Char → List ℚ) (store : IndexStore)
    (f : FileEntry) : IndexStore :=
  match fileChunks emb f with
  | none => store
  | some v => writeStore store f.name v

def indexDocuments (emb : List Char → List ℚ) (store : IndexStore)
    (files : List FileEntry) : IndexStore :=
  files.foldl (indexDocumentsStep emb) store

def chunkCountForUrl (store : IndexStore) (url : List Char) : Nat :=
  (store.map (fun e => (e.2.filter (fun c => c.url == url)).length)).sum

def storeKeys (store : IndexStore) : List (List Char) :=
  store.map (fun e => e.1)

lemma lookup_writeStore_self (store : IndexStore) (k : List Char)
    (v : List DocumentChunk) : lookupStore (writeStore store k v) k = some v := by
  induction store with
  | nil => simp [writeStore, lookupStore, List.find?]
  | cons e rest ih =>
    by_cases he : (e.1 == k) = true
    · rw [writeStore, if_pos he]
      simp [lookupStore, List.find?]
    · rw [writeStore, if_neg he]
      simp only [lookupStore, List.find?, he]
      exact ih

lemma lookup_writeStore_other (store : IndexStore) (k k2 : List Char)
    (v : List DocumentChunk) (hne : k2 ≠ k) :
    lookupStore (writeStore store k v) k2 = lookupStore store k2 := by
  induction store with
  | nil =>
    simp [writeStore, lookupStore, List.find?,
      beq_false_of_ne (fun h => hne h.symm)]
  | cons e rest ih =>
    by_cases he : (e.1 == k) = true
    · rw [writeStore, if_pos he]
      have he2 : (k == k2) = false := beq_false_of_ne (fun h => hne h.symm)
      have he3 : (e.1 == k2) = false := by
        have h1 : e.1 = k := eq_of_beq he
        rw [h1]
        exact he2
      simp [lookupStore, List.find?, he2, he3]
    · rw [writeStore, if_neg he]
      by_cases he2 : (e.1 == k2) = true
      · simp [lookupStore, List.find?, he2]
      · simp only [lookupStore, List.find?, he2]
        exact ih

lemma writeStore_id (store : IndexStore) (k : List Char)
    (v : List DocumentChunk) (h : lookupStore store k = some v) :
    writeStore store k v = store := by
  induction store with
  | nil => simp [lookupStore, List.find?] at h
  | cons e rest ih =>
    by_cases he : (e.1 == k) = true
    · rw [writeStore, if_pos he]
      simp only [lookupStore, List.find?, he, Option.map_some'] at h
      have h1 : e.1 = k := eq_of_beq he
      have h2 : e = (k, v) := by
        cases e with
        | mk a b =>
          simp only [Option.some.injEq] at h
          simp only at h1
          rw [h1, h]
      rw [h2]
    · rw [writeStore, if_neg he]
      simp only [lookupStore, List.find?, he] at h
      rw [ih h]

lemma lookup_indexDocuments_not_mem (emb : List Char → List ℚ)
    (files : List FileEntry) :
    ∀ (store : IndexStore) (key : List Char),
      key ∉ files.map (fun f => f.name) →
      lookupStore (indexDocuments emb store files) key = lookupStore store key := by
  induction files with
  | nil => intro store key _; rfl
  | cons f rest ih =>
    intro store key hk
    simp only [List.map_cons, List.mem_cons, not_or] at hk
    show lookupStore (indexDocuments emb (indexDocumentsStep emb store f) rest) key = _
    rw [ih (indexDocumentsStep emb store f) key hk.2]
    unfold indexDocumentsStep
    cases hfc : fileChunks emb f with
    | none => rfl
    | some v => exact lookup_writeStore_other store f.name key v hk.1

lemma lookup_indexDocuments_mem (emb : List Char → List ℚ)
    (files : List FileEntry) :
    ∀ (store : IndexStore) (f : FileEntry) (v : List DocumentChunk),
      (files.map (fun f => f.name)).Nodup → f ∈ files →
      fileChunks emb f = some v →
      lookupStore (indexDocuments emb store files) f.name = some v := by
  induction files with
  | nil => intro store f v _ hmem; simp at hmem
  | cons f0 rest ih =>
    intro store f v hnd hmem hfc
    simp only [List.map_cons, List.nodup_cons] at hnd
    rcases List.mem_cons.mp hmem with heq | hmem2
    · subst heq
      show lookupStore (indexDocuments emb (indexDocumentsStep emb store f) rest)
          f.name = some v
      rw [lookup_indexDocuments_not_mem emb rest _ f.name hnd.1]
      unfold indexDocumentsStep
      rw [hfc]
      exact lookup_writeStore_self store f.name v
    · exact ih (indexDocumentsStep emb store f0) f v hnd.2 hmem2 hfc

lemma indexDocuments_id_of_lookup (emb : List Char → List ℚ)
    (files : List FileEntry) :
    ∀ (store : IndexStore),
      (∀ f ∈ files, ∀ v, fileChunks emb f = some v →
        lookupStore store f.name = some v) →
      indexDocuments emb store files = store := by
  induction files with
  | nil => intro store _; rfl
  | cons f0 rest ih =>
    intro store hl
    show indexDocuments emb (indexDocumentsStep emb store f0) rest = store
    have hstep : indexDocumentsStep emb store f0 = store := by
      unfold indexDocumentsStep
      cases hfc : fileChunks emb f0 with
      | none => rfl
      | some v =>
        exact writeStore_id store f0.name v
          (hl f0 (List.mem_cons_self f0 rest) v hfc)
    rw [hstep]
    exact ih store (fun f hf v hv => hl f (List.mem_cons_of_mem f0 hf) v hv)

/-- C3 (amended): the file-based `IndexDatabase.indexDocuments` replaces a
document's chunks on re-indexing — running it a second time over the same
files (with the distinct file names a directory guarantees) leaves the
index store unchanged, so the chunk count for every URL stays constant.
The Qdrant path `saveChunksToQdrant` violates the claim (see the
counterexample): it gives every point a fresh random UUID, so upserting
never replaces and re-indexing duplicates the chunks. -/
theorem c3_reindex_idempotent_amended (emb : List Char → List ℚ)
    (store : IndexStore) (files : List FileEntry) (url : List Char)
    (hnd : (files.map (fun f => f.name)).Nodup) :
    indexDocuments emb (indexDocuments emb store files) files =
      indexDocuments emb store files ∧
    chunkCountForUrl
        (indexDocuments emb (indexDocuments emb store files) files) url =
      chunkCountForUrl (indexDocuments emb store files) url := by
  have hid : indexDocuments emb (indexDocuments emb store files) files =
      indexDocuments emb store files := by
    apply indexDocuments_id_of_lookup
    intro f hf v hv
    exact lookup_indexDocuments_mem emb files store f v hnd hf hv
  exact ⟨hid, by rw [hid]⟩

/-- Witness for the amended C3: one file, indexed twice, keeps its single
chunk. -/
theorem c3_reindex_idempotent_amended_witness :
    ((([⟨['f'], some ⟨['u'], ['t'], ['x', '.']⟩⟩] : List FileEntry)).map
        (fun f => f.name)).Nodup ∧
    indexDocuments (fun _ => [])
        (indexDocuments (fun _ => []) []
          [⟨['f'], some ⟨['u'], ['t'], ['x', '.']⟩⟩])
        [⟨['f'], some ⟨['u'], ['t'], ['x', '.']⟩⟩] =
      indexDocuments (fun _ => []) []
        [⟨['f'], some ⟨['u'], ['t'], ['x', '.']⟩⟩] :=
  ⟨by decide,
   (c3_reindex_idempotent_amended (fun _ => []) []
      [⟨['f'], some ⟨['u'], ['t'], ['x', '.']⟩⟩] ['u'] (by decide)).1⟩

/-- C3 counterexample: saving the same one-chunk document to Qdrant twice
stores two points for that URL — the random point ids mean the upsert
never replaces. -/
theorem c3_counterexample :
    qdrantCountForUrl
        (saveChunksToQdrant
          (saveChunksToQdrant ⟨[], 0⟩ ['u'] [['w']]) ['u'] [['w']])
        ['u'] = 2 ∧
    qdrantCountForUrl (saveChunksToQdrant ⟨[], 0⟩ ['u'] [['w']]) ['u'] = 1 := by
  have hch : chunkMarkdownSlidingWindow [[('w' : Char)]] = [[['w']]] := by
    rw [chunkMarkdownSlidingWindow, chunkFrom]
    norm_num [chunkSize]
  have h1 : saveChunksToQdrant ⟨[], 0⟩ ['u'] [['w']] =
      ⟨[⟨0, ['u'], ['u', '#', 'c', 'h', 'u', 'n', 'k', '-', '0'], [['w']]⟩], 1⟩ := by
    unfold saveChunksToQdrant
    rw [hch]
    decide
  have h2 : saveChunksToQdrant
      ⟨[⟨0, ['u'], ['u', '#', 'c', 'h', 'u', 'n', 'k', '-', '0'], [['w']]⟩], 1⟩
      ['u'] [['w']] =
      ⟨[⟨0, ['u'], ['u', '#', 'c', 'h', 'u', 'n', 'k', '-', '0'], [['w']]⟩,
        ⟨1, ['u'], ['u', '#', 'c', 'h', 'u', 'n', 'k', '-', '0'], [['w']]⟩], 2⟩ := by
    unfold saveChunksToQdrant
    rw [hch]
    decide
  rw [h1, h2]
  exact ⟨by decide, by decide⟩

/- ### `computeCosineSimilarity` (both IndexDatabase classes, identical)

The loop runs over `i < min(vec1.length, vec2.length)` accumulating the
dot product and both squared magnitudes, takes square roots, and returns 0
when either magnitude is zero, `dot / (mag1 * mag2)` otherwise.  JS
doubles are modelled as real numbers; the zipped traversal models the
min-length loop bound. -/

noncomputable def computeCosineSimilarity (vec1 vec2 : List ℝ) : ℝ :=
  let dotProduct := ((vec1.zip vec2).map (fun p => p.1 * p.2)).sum
  let mag1 := Real.sqrt (((vec1.zip vec2).map (fun p => p.1 * p.1)).sum)
  let mag2 := Real.sqrt (((vec1.zip vec2).map (fun p => p.2 * p.2)).sum)
  if mag1 = 0 ∨ mag2 = 0 then 0 else dotProduct / (mag1 * mag2)

/-- The mathematical dot product of the spec. -/
def dotList (a b : List ℝ) : ℝ := (List.zipWith (fun x y => x * y) a b).sum

/-- The Euclidean magnitude of the spec. -/
noncomputable def euclidNorm (v : List ℝ) : ℝ :=
  Real.sqrt ((v.map (fun x => x * x)).sum)

lemma zip_map_fst_sq : ∀ (a b : List ℝ), a.length = b.length →
    ((a.zip b).map (fun p => p.1 * p.1)).sum = (a.map (fun x => x * x)).sum
  | [], [], _ => rfl
  | [], _ :: _, h => by simp at h
  | _ :: _, [], h => by simp at h
  | x :: xs, y :: ys, h => by
    simp only [List.zip_cons_cons, List.map_cons, List.sum_cons]
    rw [zip_map_fst_sq xs ys (by simpa using h)]

lemma zip_map_snd_sq : ∀ (a b : List ℝ), a.length = b.length →
    ((a.zip b).map (fun p => p.2 * p.2)).sum = (b.map (fun x => x * x)).sum
  | [], [], _ => rfl
  | [], _ :: _, h => by simp at h
  | _ :: _, [], h => by simp at h
  | x :: xs, y :: ys, h => by
    simp only [List.zip_cons_cons, List.map_cons, List.sum_cons]
    rw [zip_map_snd_sq xs ys (by simpa using h)]

lemma zip_map_mul : ∀ (a b : List ℝ),
    ((a.zip b).map (fun p => p.1 * p.2)).sum = (List.zipWith (fun x y => x * y) a b).sum
  | [], [] => rfl
  | [], _ :: _ => rfl
  | _ :: _, [] => rfl
  | x :: xs, y :: ys => by
    simp only [List.zip_cons_cons, List.map_cons, List.sum_cons,
      List.zipWith_cons_cons]
    rw [zip_map_mul xs ys]

/-- C8: for every pair of equal-length vectors, the similarity routine
returns dot(a,b)/(‖a‖·‖b‖) when both magnitudes are non-zero, and returns
0 (not NaN, not an error) whenever either magnitude is zero. -/
theorem c8_cosine_similarity (a b : List ℝ) (hlen : a.length = b.length) :
    ((euclidNorm a ≠ 0 ∧ euclidNorm b ≠ 0) →
      computeCosineSimilarity a b = dotList a b / (euclidNorm a * euclidNorm b)) ∧
    ((euclidNorm a = 0 ∨ euclidNorm b = 0) →
      computeCosineSimilarity a b = 0) := by
  have h1 : Real.sqrt (((a.zip b).map (fun p => p.1 * p.1)).sum) = euclidNorm a := by
    rw [euclidNorm, zip_map_fst_sq a b hlen]
  have h2 : Real.sqrt (((a.zip b).map (fun p => p.2 * p.2)).sum) = euclidNorm b := by
    rw [euclidNorm, zip_map_snd_sq a b hlen]
  constructor
  · intro hnz
    rw [computeCosineSimilarity]
    simp only [h1, h2]
    rw [if_neg (by push_neg; exact hnz)]
    rw [zip_map_mul a b]
    rfl
  · intro hz
    rw [computeCosineSimilarity]
    simp only [h1, h2]
    rw [if_pos hz]

/-- Witness for C8 at the vectors [1] and [1]. -/
theorem c8_cosine_similarity_witness :
    euclidNorm [(1 : ℝ)] ≠ 0 ∧
    computeCosineSimilarity [(1 : ℝ)] [(1 : ℝ)] =
      dotList [(1 : ℝ)] [(1 : ℝ)] / (euclidNorm [(1 : ℝ)] * euclidNorm [(1 : ℝ)]) := by
  have h1 : euclidNorm [(1 : ℝ)] = 1 := by
    rw [euclidNorm]
    simp
  have hne : euclidNorm [(1 : ℝ)] ≠ 0 := by rw [h1]; norm_num
  exact ⟨hne, (c8_cosine_similarity [(1 : ℝ)] [(1 : ℝ)] rfl).1 ⟨hne, hne⟩⟩

/- ## Tool layer: `handleSearchExistingData` (src/src/tools.ts)

The embedding parameterizes over the per-query search function
`search q limit` (the `IndexDatabase.search` boundary: embedding the query
and scanning the index are behind it) and over the set of crawled website
URLs (`getWebsiteDirectory` keys the storage directory by an md5-derived
name of the URL; the naming is a deterministic injection, so presence of
the directory is modelled as membership of the URL).  JS relevance numbers
`parseFloat((1 - distance).toFixed(4))` are modelled by exact decimal
rounding `round4` on ℚ; `formatSearchResult` re-derives the displayed
relevance from the kept occurrence's `distance` field, exactly as the
source does.  A thrown `McpError` inside the `try` block is modelled by
`Except.error`; the `catch` re-wraps any error as `InternalError` with
message "Search operation failed: " + the McpError message
("MCP error <code>: <text>"). -/

structure SearchHit where
  url : List Char
  title : List Char
  content : List Char
  distance : ℚ
deriving DecidableEq, Repr

structure SRR where
  url : List Char
  title : List Char
  content : List Char
  distance : ℚ
  relevance : ℚ
  matchedQueries : List (List Char)
deriving DecidableEq, Repr

structure FormattedResult where
  url : List Char
  title : List Char
  content : List Char
  relevance : ℚ
  matchedQueries : List (List Char)
deriving DecidableEq, Repr

structure McpErr where
  code : Int
  msg : List Char
deriving DecidableEq, Repr

def ErrorCodeInvalidParams : Int := -32602

def ErrorCodeInternalError : Int := -32603

/-- `McpError`'s `message` property: "MCP error <code>: <text>". -/
def mcpErrorMessage (e : McpErr) : List Char :=
  "MCP error ".toList ++ (toString e.code).toList ++ ": ".toList ++ e.msg

/-- `parseFloat((x).toFixed(4))`: round to 4 decimal places.  Written with
`Int.floor` directly (`round_eq` shows this is `round (x * 10000) / 10000`). -/
def round4 (x : ℚ) : ℚ := ((⌊x * 10000 + 1 / 2⌋ : ℤ) : ℚ) / 10000

/-- `arr.filter((q, i) => arr.indexOf(q) === i)`: keep first occurrences. -/
def dedupKeepFirstAux (seen : List (List Char)) :
    List (List Char) → List (List Char)
  | [] => []
  | a :: as =>
    if a ∈ seen then dedupKeepFirstAux seen as
    else a :: dedupKeepFirstAux (seen ++ [a]) as

def dedupKeepFirst (l : List (List Char)) : List (List Char) :=
  dedupKeepFirstAux [] l

/-- JS `text.lastIndexOf(pat, pos)`: the largest start index ≤ pos where
`pat` occurs, or -1. -/
def lastIndexOfFrom (text pat : List Char) (pos : Nat) : Int :=
  match ((List.range (pos + 1)).filter
      (fun i => pat.isPrefixOf (text.drop i))).getLast? with
  | none => -1
  | some i => (i : Int)

/-- `findNaturalBreakpoint` (src/src/utils.ts): prefers a paragraph break,
then a sentence end, then a word boundary near the target position.  The
decimal range factors (0.2, 0.15, 0.1) are modelled exactly on ℕ. -/
def findNaturalBreakpoint (text : List Char) (nearPosition : Nat) : Nat :=
  let maxPosition := min nearPosition text.length
  let paragraphSearchRange := maxPosition * 2 / 10
  let paragraphBreakIndex := lastIndexOfFrom text ['\n', '\n'] maxPosition
  if (maxPosition : Int) - paragraphSearchRange ≤ paragraphBreakIndex then
    paragraphBreakIndex.toNat + 2
  else
    let sentenceSearchRange := maxPosition * 15 / 100
    let sentenceBreakIndex :=
      [['.', ' '], ['!', ' '], ['?', ' ']].foldl
        (fun best pat =>
          let index := lastIndexOfFrom text pat maxPosition
          if best < index ∧ (maxPosition : Int) - sentenceSearchRange ≤ index
          then index else best)
        (-1)
    if 0 < sentenceBreakIndex then sentenceBreakIndex.toNat + 1
    else
      let wordSearchRange := maxPosition / 10
      let wordBreakIndex := lastIndexOfFrom text [' '] maxPosition
      if (maxPosition : Int) - wordSearchRange ≤ wordBreakIndex then
        wordBreakIndex.toNat
      else maxPosition

/-- `formatSearchResult` (src/src/utils.ts) with its default
`maxContentLength = 1500`: limits the content at a natural breakpoint and
reports `relevance := round4(1 - distance)` — recomputed from the
`distance` field, not from the deduplicated `relevance`. -/
def formatSearchResult (r : SRR) : FormattedResult :=
  { url := r.url,
    title := r.title,
    content := if 1500 < r.content.length
      then r.content.take (findNaturalBreakpoint r.content 1500)
      else r.content,
    relevance := round4 (1 - r.distance),
    matchedQueries := r.matchedQueries }

/-- The per-query search loop: each result is tagged with
`relevance = round4(1 - distance)` and `matchedQueries = [q]`. -/
def searchExistingAllResults (search : List Char → Nat → List SearchHit)
    (queries : List (List Char)) (limit : Nat) : List SRR :=
  (queries.map (fun q => (search q limit).map (fun r =>
    ({ url := r.url, title := r.title, content := r.content,
       distance := r.distance,
       relevance := round4 (1 - r.distance),
       matchedQueries := [q] } : SRR)))).flatten

/-- `allResults.filter(r => r.url.startsWith(url))` when a URL was given. -/
def filterByUrl (url : Option (List Char)) (rs : List SRR) : List SRR :=
  match url with
  | none => rs
  | some u => rs.filter (fun r => u.isPrefixOf r.url)

/-- The collision update of the `reduce`: the stored (first-seen) entry
keeps its fields but takes the larger relevance and the deduplicated union
of matched queries. -/
def dedupUpdate (r e : SRR) : SRR :=
  if e.url == r.url then
    { e with
      relevance := if e.relevance < r.relevance then r.relevance
        else e.relevance,
      matchedQueries := dedupKeepFirst (e.matchedQueries ++ r.matchedQueries) }
  else e

/-- One step of the `reduce` into the `Map`: a first-seen URL is appended,
a collision updates the stored entry in place. -/
def dedupStep (m : List SRR) (r : SRR) : List SRR :=
  if m.any (fun e => e.url == r.url) then m.map (dedupUpdate r)
  else m ++ [r]

/-- `Array.from(results.reduce(..., new Map()).values())`: JS Maps iterate
in insertion order, so the values are an association list in first-seen
order. -/
def dedupByUrl (rs : List SRR) : List SRR := rs.foldl dedupStep []

def insertByRel (r : SRR) : List SRR → List SRR
  | [] => [r]
  | x :: xs =>
    if x.relevance < r.relevance then r :: x :: xs else x :: insertByRel r xs

/-- `.sort((a, b) => b.relevance - a.relevance)`: a stable descending sort
by relevance. -/
def sortByRelevanceDesc : List SRR → List SRR
  | [] => []
  | x :: xs => insertByRel x (sortByRelevanceDesc xs)

def searchExistingPipeline (search : List Char → Nat → List SearchHit)
    (queries : List (List Char)) (url : Option (List Char)) (limit : Nat) :
    List FormattedResult :=
  ((sortByRelevanceDesc (dedupByUrl (filterByUrl url
    (searchExistingAllResults search queries limit)))).take limit).map
    formatSearchResult

def handleSearchExistingData (search : List Char → Nat → List SearchHit)
    (crawledUrls : List (List Char)) (queries : List (List Char))
    (url : Option (List Char)) (limit : Nat) :
    Except McpErr (List FormattedResult) :=
  if queries.isEmpty then
    Except.error ⟨ErrorCodeInvalidParams,
      "At least one search query is required".toList⟩
  else
    let body : Except McpErr (List FormattedResult) :=
      match url with
      | some u =>
        if u ∈ crawledUrls then
          Except.ok (searchExistingPipeline search queries url limit)
        else
          Except.error ⟨ErrorCodeInvalidParams,
            "Website ".toList ++ u ++
              " has not been crawled yet. Use search_website tool first.".toList⟩
      | none => Except.ok (searchExistingPipeline search queries url limit)
    match body with
    | Except.error e =>
      Except.error ⟨ErrorCodeInternalError,
        "Search operation failed: ".toList ++ mcpErrorMessage e⟩
    | Except.ok v => Except.ok v

/- ### Properties of the deduplication fold -/

lemma mem_dedupKeepFirstAux (l : List (List Char)) :
    ∀ (seen : List (List Char)) (x : List Char),
      x ∈ dedupKeepFirstAux seen l ↔ (x ∈ l ∧ x ∉ seen) := by
  induction l with
  | nil => intro seen x; simp [dedupKeepFirstAux]
  | cons a as ih =>
    intro seen x
    by_cases ha : a ∈ seen
    · rw [dedupKeepFirstAux, if_pos ha, ih seen x]
      constructor
      · exact fun hx => ⟨List.mem_cons_of_mem a hx.1, hx.2⟩
      · intro hx
        refine ⟨?_, hx.2⟩
        rcases List.mem_cons.mp hx.1 with h1 | h1
        · exact absurd (h1 ▸ ha) hx.2
        · exact h1
    · rw [dedupKeepFirstAux, if_neg ha]
      constructor
      · intro hx
        rcases List.mem_cons.mp hx with h1 | h1
        · exact ⟨h1 ▸ List.mem_cons_self a as, h1 ▸ ha⟩
        · have h2 := (ih (seen ++ [a]) x).mp h1
          exact ⟨List.mem_cons_of_mem a h2.1,
            fun hc => h2.2 (List.mem_append_left _ hc)⟩
      · rintro ⟨hx1, hx2⟩
        rcases List.mem_cons.mp hx1 with h1 | h1
        · exact h1 ▸ List.mem_cons_self a _
        · by_cases hxa : x = a
          · exact hxa ▸ List.mem_cons_self a _
          · refine List.mem_cons_of_mem a ((ih (seen ++ [a]) x).mpr ⟨h1, ?_⟩)
            intro hc
            rcases List.mem_append.mp hc with h3 | h3
            · exact hx2 h3
            · simp only [List.mem_singleton] at h3
              exact hxa h3

lemma mem_dedupKeepFirst (l : List (List Char)) (x : List Char) :
    x ∈ dedupKeepFirst l ↔ x ∈ l := by
  simp [dedupKeepFirst, mem_dedupKeepFirstAux]

lemma find?_append_some {α : Type} {p : α → Bool} :
    ∀ {l1 : List α} (l2 : List α) {a : α},
      l1.find? p = some a → (l1 ++ l2).find? p = some a := by
  intro l1
  induction l1 with
  | nil => intro l2 a h; simp [List.find?] at h
  | cons x xs ih =>
    intro l2 a h
    by_cases hx : p x = true
    · rw [List.find?_cons_of_pos _ hx] at h
      rw [List.cons_append, List.find?_cons_of_pos _ hx]
      exact h
    · rw [List.find?_cons_of_neg _ (by simpa using hx)] at h
      rw [List.cons_append, List.find?_cons_of_neg _ (by simpa using hx)]
      exact ih l2 h

lemma find?_append_none {α : Type} {p : α → Bool} :
    ∀ {l1 : List α} (l2 : List α),
      l1.find? p = none → (l1 ++ l2).find? p = l2.find? p := by
  intro l1
  induction l1 with
  | nil => intro l2 _; rfl
  | cons x xs ih =>
    intro l2 h
    by_cases hx : p x = true
    · rw [List.find?_cons_of_pos _ hx] at h
      exact absurd h (by simp)
    · rw [List.find?_cons_of_neg _ (by simpa using hx)] at h
      rw [List.cons_append, List.find?_cons_of_neg _ (by simpa using hx)]
      exact ih l2 h

/-- What the dedup fold guarantees for one stored entry, relative to the
list `seen` of results folded so far: the ranking relevance is attained by
and bounds all occurrences of the entry's URL, the matched-query list is
exactly the union of the occurrences' matched queries, and the remaining
fields are those of the first occurrence. -/
def entryInv (seen : List SRR) (e : SRR) : Prop :=
  (∃ r ∈ seen, r.url = e.url ∧ r.relevance = e.relevance) ∧
  (∀ r ∈ seen, r.url = e.url → r.relevance ≤ e.relevance) ∧
  (∀ q, q ∈ e.matchedQueries ↔
    ∃ r ∈ seen, r.url = e.url ∧ q ∈ r.matchedQueries) ∧
  (∃ r0, seen.find? (fun r => r.url == e.url) = some r0 ∧
    e.distance = r0.distance ∧ e.title = r0.title ∧ e.content = r0.content)

def DedupInv (seen m : List SRR) : Prop :=
  (m.map (fun e => e.url)).Nodup ∧
  (∀ r ∈ seen, ∃ e ∈ m, e.url = r.url) ∧
  (∀ e ∈ m, entryInv seen e)

lemma dedupUpdate_url (r e : SRR) : (dedupUpdate r e).url = e.url := by
  unfold dedupUpdate
  split <;> rfl

lemma entryInv_lift {seen : List SRR} {e : SRR} (r : SRR)
    (hne : r.url ≠ e.url) (h : entryInv seen e) : entryInv (seen ++ [r]) e := by
  obtain ⟨⟨ra, hra, hraU, hraR⟩, hub, hmq, ⟨r0, hr0, hr0f⟩⟩ := h
  refine ⟨⟨ra, List.mem_append_left _ hra, hraU, hraR⟩, ?_, ?_, ?_⟩
  · intro r2 hr2 hu
    rcases List.mem_append.mp hr2 with h2 | h2
    · exact hub r2 h2 hu
    · simp only [List.mem_singleton] at h2
      exact absurd (h2 ▸ hu) hne
  · intro q
    rw [hmq q]
    constructor
    · rintro ⟨r2, hr2, hu, hq⟩
      exact ⟨r2, List.mem_append_left _ hr2, hu, hq⟩
    · rintro ⟨r2, hr2, hu, hq⟩
      rcases List.mem_append.mp hr2 with h2 | h2
      · exact ⟨r2, h2, hu, hq⟩
      · simp only [List.mem_singleton] at h2
        exact absurd (h2 ▸ hu) hne
  · exact ⟨r0, find?_append_some _ hr0, hr0f⟩

lemma dedupStep_inv (seen m : List SRR) (r : SRR) (h : DedupInv seen m) :
    DedupInv (seen ++ [r]) (dedupStep m r) := by
  obtain ⟨hnd, hrep, hinv⟩ := h
  unfold dedupStep
  by_cases hany : m.any (fun e => e.url == r.url) = true
  · rw [if_pos hany]
    have hmapurl : (m.map (dedupUpdate r)).map (fun e => e.url) =
        m.map (fun e => e.url) := by
      rw [List.map_map]
      exact List.map_congr_left (fun e _ => dedupUpdate_url r e)
    refine ⟨by rw [hmapurl]; exact hnd, ?_, ?_⟩
    · intro r2 hr2
      rcases List.mem_append.mp hr2 with h2 | h2
      · obtain ⟨e, he, heu⟩ := hrep r2 h2
        exact ⟨dedupUpdate r e, List.mem_map_of_mem _ he,
          (dedupUpdate_url r e).trans heu⟩
      · have h2r : r2 = r := List.mem_singleton.mp h2
        rw [h2r]
        obtain ⟨e, he, heq⟩ := List.any_eq_true.mp hany
        exact ⟨dedupUpdate r e, List.mem_map_of_mem _ he,
          (dedupUpdate_url r e).trans (eq_of_beq heq)⟩
    · intro e2 he2
      rw [List.mem_map] at he2
      obtain ⟨e, he, he2eq⟩ := he2
      subst he2eq
      by_cases heq : (e.url == r.url) = true
      · have heq2 : e.url = r.url := eq_of_beq heq
        obtain ⟨⟨ra, hra, hraU, hraR⟩, hub, hmq, ⟨r0, hr0, hr0f⟩⟩ := hinv e he
        have hupd : dedupUpdate r e =
            { e with
              relevance := if e.relevance < r.relevance then r.relevance
                else e.relevance,
              matchedQueries :=
                dedupKeepFirst (e.matchedQueries ++ r.matchedQueries) } := by
          unfold dedupUpdate
          rw [if_pos heq]
        rw [hupd]
        refine ⟨?_, ?_, ?_, ?_⟩
        · by_cases hlt : e.relevance < r.relevance
          · refine ⟨r, List.mem_append_right _ (List.mem_singleton_self r),
              heq2.symm, ?_⟩
            show r.relevance =
              if e.relevance < r.relevance then r.relevance else e.relevance
            rw [if_pos hlt]
          · refine ⟨ra, List.mem_append_left _ hra, hraU, ?_⟩
            show ra.relevance =
              if e.relevance < r.relevance then r.relevance else e.relevance
            rw [if_neg hlt]
            exact hraR
        · intro r2 hr2 hu
          show r2.relevance ≤
            if e.relevance < r.relevance then r.relevance else e.relevance
          rcases List.mem_append.mp hr2 with h2 | h2
          · by_cases hlt : e.relevance < r.relevance
            · rw [if_pos hlt]
              exact le_of_lt (lt_of_le_of_lt (hub r2 h2 hu) hlt)
            · rw [if_neg hlt]
              exact hub r2 h2 hu
          · have h2r : r2 = r := List.mem_singleton.mp h2
            by_cases hlt : e.relevance < r.relevance
            · rw [if_pos hlt, h2r]
            · rw [if_neg hlt, h2r]
              exact le_of_not_lt hlt
        · intro q
          have hql : q ∈ dedupKeepFirst (e.matchedQueries ++ r.matchedQueries) ↔
              q ∈ e.matchedQueries ∨ q ∈ r.matchedQueries := by
            rw [mem_dedupKeepFirst]
            exact List.mem_append
          show q ∈ dedupKeepFirst (e.matchedQueries ++ r.matchedQueries) ↔ _
          rw [hql]
          constructor
          · rintro (hq | hq)
            · obtain ⟨r2, h2, hu2, hqq⟩ := (hmq q).mp hq
              exact ⟨r2, List.mem_append_left _ h2, hu2, hqq⟩
            · exact ⟨r, List.mem_append_right _ (List.mem_singleton_self r),
                heq2.symm, hq⟩
          · rintro ⟨r2, hr2, hu2, hqq⟩
            rcases List.mem_append.mp hr2 with h2 | h2
            · exact Or.inl ((hmq q).mpr ⟨r2, h2, hu2, hqq⟩)
            · have h2r : r2 = r := List.mem_singleton.mp h2
              rw [h2r] at hqq
              exact Or.inr hqq
        · exact ⟨r0, find?_append_some _ hr0, hr0f⟩
      · have hne : r.url ≠ e.url := by
          intro hcon
          exact absurd (beq_iff_eq.mpr hcon.symm) (by simpa using heq)
        have hid : dedupUpdate r e = e := by
          unfold dedupUpdate
          rw [if_neg heq]
        rw [hid]
        exact entryInv_lift r hne (hinv e he)
  · rw [if_neg hany]
    have hnm : ∀ e ∈ m, e.url ≠ r.url := by
      intro e he
      have h3 := List.any_eq_false.mp (Bool.eq_false_iff.mpr hany) e he
      simpa using h3
    have hnotin : r.url ∉ m.map (fun e => e.url) := by
      intro hcon
      rw [List.mem_map] at hcon
      obtain ⟨e, he, heq⟩ := hcon
      exact hnm e he heq
    have hnoseen : ∀ r2 ∈ seen, r2.url ≠ r.url := by
      intro r2 h2 hcon
      obtain ⟨e, he, heu⟩ := hrep r2 h2
      exact hnm e he (heu.trans hcon)
    have hrInv : entryInv (seen ++ [r]) r := by
      refine ⟨⟨r, List.mem_append_right _ (List.mem_singleton_self r),
        rfl, rfl⟩, ?_, ?_, ?_⟩
      · intro r2 hr2 hu
        rcases List.mem_append.mp hr2 with h2 | h2
        · exact absurd hu (hnoseen r2 h2)
        · rw [List.mem_singleton.mp h2]
      · intro q
        constructor
        · intro hq
          exact ⟨r, List.mem_append_right _ (List.mem_singleton_self r),
            rfl, hq⟩
        · rintro ⟨r2, hr2, hu, hq⟩
          rcases List.mem_append.mp hr2 with h2 | h2
          · exact absurd hu (hnoseen r2 h2)
          · rw [List.mem_singleton.mp h2] at hq
            exact hq
      · refine ⟨r, ?_, rfl, rfl, rfl⟩
        rw [find?_append_none _ (List.find?_eq_none.mpr
          (fun r2 h2 => by simpa using hnoseen r2 h2))]
        simp [List.find?]
    refine ⟨?_, ?_, ?_⟩
    · rw [List.map_append]
      exact nodup_append_singleton hnd hnotin
    · intro r2 hr2
      rcases List.mem_append.mp hr2 with h2 | h2
      · obtain ⟨e, he, heu⟩ := hrep r2 h2
        exact ⟨e, List.mem_append_left _ he, heu⟩
      · rw [List.mem_singleton.mp h2]
        exact ⟨r, List.mem_append_right _ (List.mem_singleton_self r), rfl⟩
    · intro e he
      rcases List.mem_append.mp he with h2 | h2
      · exact entryInv_lift r (fun hc => hnm e h2 hc.symm) (hinv e h2)
      · rw [List.mem_singleton.mp h2]
        exact hrInv

lemma dedupFold_inv (rs : List SRR) :
    ∀ (seen m : List SRR), DedupInv seen m →
      DedupInv (seen ++ rs) (rs.foldl dedupStep m) := by
  induction rs with
  | nil =>
    intro seen m h
    simpa using h
  | cons r rs ih =>
    intro seen m h
    have h2 := ih (seen ++ [r]) (dedupStep m r) (dedupStep_inv seen m r h)
    rw [List.append_assoc, List.singleton_append] at h2
    exact h2

lemma dedupByUrl_inv (rs : List SRR) : DedupInv rs (dedupByUrl rs) := by
  have h0 : DedupInv [] ([] : List SRR) :=
    ⟨List.nodup_nil, fun r h => absurd h (List.not_mem_nil r),
      fun e he => absurd he (List.not_mem_nil e)⟩
  have h := dedupFold_inv rs [] [] h0
  simpa using h

lemma insertByRel_perm (r : SRR) (l : List SRR) :
    (insertByRel r l).Perm (r :: l) := by
  induction l with
  | nil => exact List.Perm.refl _
  | cons x xs ih =>
    rw [insertByRel]
    by_cases h : x.relevance < r.relevance
    · rw [if_pos h]
    · rw [if_neg h]
      exact (ih.cons x).trans (List.Perm.swap r x xs)

lemma sortByRelevanceDesc_perm (l : List SRR) :
    (sortByRelevanceDesc l).Perm l := by
  induction l with
  | nil => exact List.Perm.refl _
  | cons x xs ih =>
    rw [sortByRelevanceDesc]
    exact (insertByRel_perm x (sortByRelevanceDesc xs)).trans (ih.cons x)

/-- What the full search-existing pipeline guarantees about its output: no
two entries share a URL; each entry gathers the union of the matched
queries of all its URL's occurrences; and each entry's displayed relevance
is recomputed as `round4 (1 - distance)` from the FIRST occurrence of its
URL in the flattened per-query results (the maximum relevance computed by
the dedup step is discarded by the final `formatSearchResult` map). -/
lemma searchExistingPipeline_spec (search : List Char → Nat → List SearchHit)
    (queries : List (List Char)) (url : Option (List Char)) (limit : Nat) :
    ((searchExistingPipeline search queries url limit).map
      (fun o => o.url)).Nodup ∧
    ∀ o ∈ searchExistingPipeline search queries url limit,
      (∀ q, q ∈ o.matchedQueries ↔
        ∃ r ∈ filterByUrl url (searchExistingAllResults search queries limit),
          r.url = o.url ∧ q ∈ r.matchedQueries) ∧
      ∃ r0,
        (filterByUrl url (searchExistingAllResults search queries limit)).find?
            (fun r => r.url == o.url) = some r0 ∧
        o.relevance = round4 (1 - r0.distance) := by
  obtain ⟨hnd, hrep, hinv⟩ :=
    dedupByUrl_inv (filterByUrl url (searchExistingAllResults search queries limit))
  have hperm := sortByRelevanceDesc_perm
    (dedupByUrl (filterByUrl url (searchExistingAllResults search queries limit)))
  constructor
  · have h1 : (searchExistingPipeline search queries url limit).map
        (fun o => o.url) =
        (((sortByRelevanceDesc (dedupByUrl (filterByUrl url
          (searchExistingAllResults search queries limit)))).take limit).map
          (fun e => e.url)) := by
      rw [searchExistingPipeline, List.map_map]
      rfl
    rw [h1, List.map_take]
    have h3 : ((sortByRelevanceDesc (dedupByUrl (filterByUrl url
        (searchExistingAllResults search queries limit)))).map
        (fun e => e.url)).Nodup :=
      (hperm.map (fun e => e.url)).nodup_iff.mpr hnd
    exact List.Nodup.sublist (List.take_sublist _ _) h3
  · intro o ho
    rw [searchExistingPipeline, List.mem_map] at ho
    obtain ⟨e, he, heo⟩ := ho
    have he2 : e ∈ sortByRelevanceDesc (dedupByUrl (filterByUrl url
        (searchExistingAllResults search queries limit))) :=
      List.mem_of_mem_take he
    have he3 : e ∈ dedupByUrl (filterByUrl url
        (searchExistingAllResults search queries limit)) :=
      hperm.mem_iff.mp he2
    obtain ⟨-, -, hmq, ⟨r0, hr0, hr0d, -, -⟩⟩ := hinv e he3
    subst heo
    refine ⟨?_, ⟨r0, hr0, ?_⟩⟩
    · intro q
      show q ∈ e.matchedQueries ↔ _
      rw [hmq q]
      exact Iff.rfl
    · show round4 (1 - e.distance) = round4 (1 - r0.distance)
      rw [hr0d]

lemma handleSearchExistingData_eq (search : List Char → Nat → List SearchHit)
    (crawledUrls queries : List (List Char)) (url : Option (List Char))
    (limit : Nat) (hq : queries ≠ [])
    (hurl : ∀ u, url = some u → u ∈ crawledUrls) :
    handleSearchExistingData search crawledUrls queries url limit =
      Except.ok (searchExistingPipeline search queries url limit) := by
  have hq2 : queries.isEmpty = false := by
    cases queries with
    | nil => exact absurd rfl hq
    | cons a as => rfl
  cases url with
  | none =>
    unfold handleSearchExistingData
    rw [hq2, if_neg Bool.false_ne_true]
  | some u =>
    unfold handleSearchExistingData
    rw [hq2, if_neg Bool.false_ne_true]
    dsimp only
    rw [if_pos (hurl u rfl)]

/-- The search backend used by the C1 counterexample: query "x" returns the
URL "u" at distance 1/2, every other query returns the same URL at
distance 1/5. -/
def c1search : List Char → Nat → List SearchHit := fun q _ =>
  if q = [('x' : Char)] then [⟨[('u' : Char)], [('t' : Char)], [('c' : Char)], 1/2⟩]
  else [⟨[('u' : Char)], [('t' : Char)], [('c' : Char)], 1/5⟩]

/-- C1 counterexample: queries ["x"; "y"] both return URL "u"; the scores it
received are round4(1-1/2) = 1/2 (from "x") and round4(1-1/5) = 4/5 (from
"y"), so the claimed kept relevance is max = 4/5 — but the pipeline's final
output carries relevance 1/2, recomputed by formatSearchResult from the
first occurrence's distance, not the deduplicated maximum. -/
theorem c1_counterexample :
    searchExistingPipeline c1search [[('x' : Char)], [('y' : Char)]] none 5 =
      [⟨[('u' : Char)], [('t' : Char)], [('c' : Char)], 1/2,
        [[('x' : Char)], [('y' : Char)]]⟩] ∧
    round4 (1 - (1 : ℚ)/2) = 1/2 ∧
    round4 (1 - (1 : ℚ)/5) = 4/5 ∧
    max ((1 : ℚ)/2) (4/5) = 4/5 ∧
    ((1 : ℚ)/2) ≠ 4/5 := by
  have hx : round4 (1 - (1 : ℚ)/2) = 1/2 := by rw [round4]; norm_num
  have hy : round4 (1 - (1 : ℚ)/5) = 4/5 := by rw [round4]; norm_num
  have hlt : ((1 : ℚ)/2) < 4/5 := by norm_num
  refine ⟨?_, hx, hy, by norm_num, by norm_num⟩
  have hall : searchExistingAllResults c1search [[('x' : Char)], [('y' : Char)]] 5 =
      [⟨[('u' : Char)], [('t' : Char)], [('c' : Char)], 1/2, 1/2, [[('x' : Char)]]⟩,
       ⟨[('u' : Char)], [('t' : Char)], [('c' : Char)], 1/5, 4/5, [[('y' : Char)]]⟩] := by
    simp +decide [searchExistingAllResults, c1search]
    constructor <;> (rw [round4]; norm_num)
  have hded : dedupByUrl
      [⟨[('u' : Char)], [('t' : Char)], [('c' : Char)], 1/2, 1/2, [[('x' : Char)]]⟩,
       ⟨[('u' : Char)], [('t' : Char)], [('c' : Char)], 1/5, 4/5, [[('y' : Char)]]⟩] =
      [⟨[('u' : Char)], [('t' : Char)], [('c' : Char)], 1/2, 4/5,
        [[('x' : Char)], [('y' : Char)]]⟩] := by
    rw [dedupByUrl, List.foldl_cons, List.foldl_cons, List.foldl_nil]
    have h1 : dedupStep []
        ⟨[('u' : Char)], [('t' : Char)], [('c' : Char)], 1/2, 1/2, [[('x' : Char)]]⟩ =
        [⟨[('u' : Char)], [('t' : Char)], [('c' : Char)], 1/2, 1/2, [[('x' : Char)]]⟩] := rfl
    rw [h1]
    simp +decide [dedupStep, dedupUpdate, dedupKeepFirst, dedupKeepFirstAux, hlt]
    norm_num
  have hfmt : formatSearchResult
      ⟨[('u' : Char)], [('t' : Char)], [('c' : Char)], 1/2, 4/5,
        [[('x' : Char)], [('y' : Char)]]⟩ =
      ⟨[('u' : Char)], [('t' : Char)], [('c' : Char)], 1/2,
        [[('x' : Char)], [('y' : Char)]]⟩ := by
    rw [formatSearchResult]
    norm_num [round4]
  rw [searchExistingPipeline, hall]
  have hfilter : filterByUrl none
      [⟨[('u' : Char)], [('t' : Char)], [('c' : Char)], 1/2, 1/2, [[('x' : Char)]]⟩,
       ⟨[('u' : Char)], [('t' : Char)], [('c' : Char)], 1/5, 4/5, [[('y' : Char)]]⟩] =
      [⟨[('u' : Char)], [('t' : Char)], [('c' : Char)], 1/2, 1/2, [[('x' : Char)]]⟩,
       ⟨[('u' : Char)], [('t' : Char)], [('c' : Char)], 1/5, 4/5, [[('y' : Char)]]⟩] := rfl
    
  rw [hfilter, hded]
  rw [show sortByRelevanceDesc
      [⟨[('u' : Char)], [('t' : Char)], [('c' : Char)], 1/2, 4/5,
        [[('x' : Char)], [('y' : Char)]]⟩] =
      [⟨[('u' : Char)], [('t' : Char)], [('c' : Char)], 1/2, 4/5,
        [[('x' : Char)], [('y' : Char)]]⟩] from rfl]
  rw [show List.take 5
      [(⟨[('u' : Char)], [('t' : Char)], [('c' : Char)], 1/2, 4/5,
        [[('x' : Char)], [('y' : Char)]]⟩ : SRR)] =
      [⟨[('u' : Char)], [('t' : Char)], [('c' : Char)], 1/2, 4/5,
        [[('x' : Char)], [('y' : Char)]]⟩] from rfl]
  rw [List.map_cons, List.map_nil, hfmt]

/-- C1 (amended): for every successful search-existing call (non-empty
queries, URL filter — if any — already crawled) the returned result list
contains no two results with the same URL, and each result's matched-query
list is the union over all occurrences of its URL across the per-query
result lists.  The dedup step does keep the maximum relevance across
queries, but the final `formatSearchResult` map recomputes the displayed
relevance as `round4 (1 - distance)` from the FIRST occurrence of the URL,
so the returned relevance is the first occurrence's score, not the
maximum. -/
theorem c1_multi_query_dedup_amended
    (search : List Char → Nat → List SearchHit)
    (crawledUrls queries : List (List Char)) (url : Option (List Char))
    (limit : Nat) (out : List FormattedResult)
    (hq : queries ≠ [])
    (hurl : ∀ u, url = some u → u ∈ crawledUrls)
    (hout : handleSearchExistingData search crawledUrls queries url limit =
      Except.ok out) :
    (out.map (fun o => o.url)).Nodup ∧
    ∀ o ∈ out,
      (∀ q, q ∈ o.matchedQueries ↔
        ∃ r ∈ filterByUrl url (searchExistingAllResults search queries limit),
          r.url = o.url ∧ q ∈ r.matchedQueries) ∧
      ∃ r0,
        (filterByUrl url (searchExistingAllResults search queries limit)).find?
            (fun r => r.url == o.url) = some r0 ∧
        o.relevance = round4 (1 - r0.distance) := by
  rw [handleSearchExistingData_eq search crawledUrls queries url limit hq hurl]
    at hout
  injection hout with h2
  rw [← h2]
  exact searchExistingPipeline_spec search queries url limit

/-- Witness for C1 (amended) at the counterexample's concrete inputs. -/
theorem c1_multi_query_dedup_amended_witness :
    (([[('x' : Char)], [('y' : Char)]] : List (List Char)) ≠ []) ∧
    (((searchExistingPipeline c1search [[('x' : Char)], [('y' : Char)]] none
        5).map (fun o => o.url)).Nodup ∧
      ∀ o ∈ searchExistingPipeline c1search [[('x' : Char)], [('y' : Char)]]
          none 5,
        (∀ q, q ∈ o.matchedQueries ↔
          ∃ r ∈ filterByUrl none (searchExistingAllResults c1search
            [[('x' : Char)], [('y' : Char)]] 5),
            r.url = o.url ∧ q ∈ r.matchedQueries) ∧
        ∃ r0,
          (filterByUrl none (searchExistingAllResults c1search
              [[('x' : Char)], [('y' : Char)]] 5)).find?
              (fun r => r.url == o.url) = some r0 ∧
          o.relevance = round4 (1 - r0.distance)) :=
  ⟨by decide,
    c1_multi_query_dedup_amended c1search [] [[('x' : Char)], [('y' : Char)]]
      none 5
      (searchExistingPipeline c1search [[('x' : Char)], [('y' : Char)]] none 5)
      (by decide) (fun u h => Option.noConfusion h) rfl⟩

/- ### C9: the not-crawled error -/

/-- C9 counterexample: calling search-existing with a URL filter "u" that
was never crawled does produce the "not crawled yet" message (and not an
empty result set) — but the error surfaced to the caller carries code
-32603 (InternalError), not -32602 (InvalidParams): the `McpError` thrown
with `ErrorCode.InvalidParams` inside the `try` block is caught by the
handler's own `catch` and rewrapped as an InternalError whose message
embeds the original "MCP error -32602: ..." text. -/
theorem c9_counterexample :
    handleSearchExistingData (fun _ _ => []) [] [[('q' : Char)]]
        (some [('u' : Char)]) 5 =
      Except.error ⟨ErrorCodeInternalError,
        ("Search operation failed: MCP error -32602: Website u has not " ++
          "been crawled yet. Use search_website tool first.").toList⟩ ∧
    ErrorCodeInternalError ≠ ErrorCodeInvalidParams := by
  constructor
  · rfl
  · decide

/-- C9 (amended): a search-existing call with non-empty queries and a URL
filter for a site that was never crawled always fails — with an error whose
code is InternalError (-32603) and whose message is "Search operation
failed: " followed by the original InvalidParams McpError message "MCP
error -32602: Website <u> has not been crawled yet. Use search_website
tool first.".  It does not return an empty (or any) result set. -/
theorem c9_not_crawled_error_amended
    (search : List Char → Nat → List SearchHit)
    (crawledUrls queries : List (List Char)) (u : List Char) (limit : Nat)
    (hq : queries ≠ []) (hu : u ∉ crawledUrls) :
    handleSearchExistingData search crawledUrls queries (some u) limit =
      Except.error ⟨ErrorCodeInternalError,
        "Search operation failed: ".toList ++ mcpErrorMessage
          ⟨ErrorCodeInvalidParams,
            "Website ".toList ++ u ++
              " has not been crawled yet. Use search_website tool first.".toList⟩⟩ := by
  have hq2 : queries.isEmpty = false := by
    cases queries with
    | nil => exact absurd rfl hq
    | cons a as => rfl
  unfold handleSearchExistingData
  rw [hq2, if_neg Bool.false_ne_true]
  dsimp only
  rw [if_neg hu]

/-- Witness for C9 (amended) at the counterexample's concrete inputs. -/
theorem c9_not_crawled_error_amended_witness :
    (([[('q' : Char)]] : List (List Char)) ≠ []) ∧
    ([('u' : Char)] ∉ ([] : List (List Char))) ∧
    handleSearchExistingData (fun _ _ => []) [] [[('q' : Char)]]
        (some [('u' : Char)]) 5 =
      Except.error ⟨ErrorCodeInternalError,
        "Search operation failed: ".toList ++ mcpErrorMessage
          ⟨ErrorCodeInvalidParams,
            "Website ".toList ++ [('u' : Char)] ++
              " has not been crawled yet. Use search_website tool first.".toList⟩⟩ :=
  ⟨by decide, by decide,
    c9_not_crawled_error_amended (fun _ _ => []) [] [[('q' : Char)]]
      [('u' : Char)] 5 (by decide) (by decide)⟩

end Docs
